import Mathlib

/-!
# Elasticsearch data source: schema discovery

A shallow embedding of `pkg/backends/elasticsearch/es_datasource.go`:
the capability record, the cached schema discovery of `loadTableSchema`
and the recursive field discovery of `buildEsFields`.

Go maps are association lists here; the order of a list stands for the order
in which `range` happens to enumerate the keys of the map, so a statement
about every list is a statement about every map in every enumeration order.

Two things the file calls lie outside the sources. The accessors of
`gou.JsonHelper` are taken as given (`Accessors`), so that every general
statement holds for whatever they answer. The type `models.Table` is kept as
the record of the calls made on it, and its field list is read from them as
the spec describes it.
-/

namespace Elasticsearch

/-! ## JSON values and the `gou.JsonHelper` accessors -/

/-- A JSON value as `encoding/json` decodes it into an interface value. -/
inductive Json where
  | null : Json
  | bool (b : Bool) : Json
  | num (n : Int) : Json
  | str (s : String) : Json
  | arr (xs : List Json) : Json
  | obj (m : List (String × Json)) : Json

/-- The type `gou.JsonHelper`, a `map[string]interface{}`: keys with their values,
listed in the order in which `range` enumerates them. -/
abbrev JsonHelper := List (String × Json)

mutual
/-- Nesting height of a value: the number of object levels inside it, lists included. -/
def Json.height : Json → Nat
  | .obj m => heightMembers m + 1
  | .arr xs => heightElems xs
  | _ => 0
/-- Nesting height of the members of an object. -/
def heightMembers : List (String × Json) → Nat
  | [] => 0
  | (_, v) :: rest => max v.height (heightMembers rest)
/-- Nesting height of the elements of a list. -/
def heightElems : List Json → Nat
  | [] => 0
  | v :: rest => max v.height (heightElems rest)
end

/-- The accessor `JsonHelper.Keys`: the keys of the map, in enumeration order. -/
def JsonHelper.Keys (j : JsonHelper) : List String :=
  j.map Prod.fst

/-- The accessors `Helper` and `String` of `gou.JsonHelper` that the adapter calls with a
key or a key path. gou is a library outside the repository and is not among the sources,
so the two are taken as given: `Helper j n` is the helper that `j.Helper(n)` answers (the
nil helper is the empty list), `StringOf j n` is the text that `j.String(n)` answers, and
`none` is a call that ends in a run-time panic instead of an answer. -/
structure Accessors where
  Helper : JsonHelper → String → Option JsonHelper
  StringOf : JsonHelper → String → Option String

/-- What is known of `Helper` without its source: a helper that is not empty holds the
members of an object that lies inside the map it was asked of, so it is less deeply
nested than that map. -/
def Accessors.Inside (g : Accessors) : Prop :=
  ∀ (j : JsonHelper) (n : String) (h : JsonHelper),
    g.Helper j n = some h → 0 < h.length → heightMembers h < heightMembers j

/-! ### Accessors for the examples -/

/-- Split at every dot, as `strings.Split(n, ".")` does on the characters of `n`. -/
def splitDots : List Char → List (List Char)
  | [] => [[]]
  | c :: cs =>
    if c = '.' then [] :: splitDots cs
    else
      match splitDots cs with
      | [] => [[c]]
      | p :: ps => (c :: p) :: ps

/-- The keys of a key path: `"t.mappings"` is the key `t`, then the key `mappings`. -/
def splitPath (n : String) : List String :=
  (splitDots n.data).map String.mk

/-- The map index expression `j[name]`: the value stored under one key. -/
def lookupKey (name : String) : JsonHelper → Option Json
  | [] => none
  | (k, v) :: rest => if k = name then some v else lookupKey name rest

/-- Descend from a value along the keys of a path; only objects have entries. -/
def getPath : List String → Json → Option Json
  | [], v => some v
  | name :: rest, .obj m =>
    match lookupKey name m with
    | some v => getPath rest v
    | none => none
  | _ :: _, _ => none

/-- The value under a key path whose keys are separated by dots, if there is one. -/
def dottedGet (j : JsonHelper) (n : String) : Option Json :=
  getPath (splitPath n) (.obj j)

/-- The object under a dotted key path, and the empty helper when there is no object. -/
def dottedHelper (j : JsonHelper) (n : String) : JsonHelper :=
  match dottedGet j n with
  | some (.obj m) => m
  | _ => []

/-- The string under a dotted key path, and `""` when there is no string. -/
def dottedString (j : JsonHelper) (n : String) : String :=
  match dottedGet j n with
  | some (.str s) => s
  | _ => ""

/-- Accessors for the examples of this file, in the place of gou: they read a key path
at its dots and never panic. They are not gou, which reads more forms of a path; the
examples use them only on replies whose keys are plain names, without a dot, a slash or a
bracket, with a plain key or with a dotted path of such keys, as in
`respJh.Helper(table + ".mappings")`, where the two agree. -/
def plainAccessors : Accessors :=
  { Helper := fun j n => some (dottedHelper j n),
    StringOf := fun j n => some (dottedString j n) }

/-! ## Table descriptors (package `models`) -/

/-- The logical types of `qlbridge/value` that the adapter assigns. -/
inductive ValueType where
  | StringType
  | NumberType
  | BoolType
  | TimeType
  | IntType
  deriving DecidableEq, Repr

/-- A cell of a describe row (`driver.Value`), and the text of a field description:
a string, nil, or the bytes `json.Marshal(h)` of a mapping node, kept as the node. -/
inductive DriverValue where
  | str (s : String) : DriverValue
  | null : DriverValue
  | json (h : JsonHelper) : DriverValue

/-- Modelled from the spec: `models.Field` and `models.NewField` are not among the
sources; a field descriptor is a name, a logical type, a size hint and a free-form
extra annotation. -/
structure Field where
  Name : String
  ValType : ValueType
  Length : Nat
  Description : DriverValue

/-- Modelled from the spec: the constructor `models.NewField(name, type, size, description)`. -/
def NewField (name : String) (valType : ValueType) (size : Nat) (description : DriverValue) : Field :=
  { Name := name, ValType := valType, Length := size, Description := description }

/-- A call that the adapter makes on a table descriptor: `tbl.AddField(fld)` or
`tbl.AddValues(values)`. -/
inductive TableCall where
  | AddField (fld : Field) : TableCall
  | AddValues (values : List DriverValue) : TableCall

/-- The type `models.Table` is not among the sources. A descriptor is kept as its name
and the calls of `AddField` and `AddValues` that were made on it, in their order, so that
what the adapter does with a descriptor is stated without a word on what the two methods
do; `Table.Fields` and `Table.DescribeValues` read the content of the descriptor. -/
structure Table where
  Name : String
  Calls : List TableCall

/-- The call `tbl.AddField(fld)`: one more call on the descriptor. -/
def Table.AddField (tbl : Table) (fld : Field) : Table :=
  { tbl with Calls := tbl.Calls ++ [.AddField fld] }

/-- The call `tbl.AddValues(values)`: one more call on the descriptor. -/
def Table.AddValues (tbl : Table) (values : List DriverValue) : Table :=
  { tbl with Calls := tbl.Calls ++ [.AddValues values] }

/-- The fields that were passed to `AddField`, in the order of the calls. -/
def Table.AddedFields (tbl : Table) : List Field :=
  tbl.Calls.filterMap (fun c => match c with
    | .AddField fld => some fld
    | .AddValues _ => none)

/-- The describe rows of the descriptor: the rows that were passed to `AddValues`, in the
order of the calls. -/
def Table.DescribeValues (tbl : Table) : List (List DriverValue) :=
  tbl.Calls.filterMap (fun c => match c with
    | .AddField _ => none
    | .AddValues values => some values)

/-- The field list after more fields are passed to `AddField`: a field whose name is in
the list already is left out. -/
def keepFirst : List Field → List Field → List Field
  | kept, [] => kept
  | kept, fld :: rest =>
    if fld.Name ∈ kept.map (fun f => f.Name) then keepFirst kept rest
    else keepFirst (kept ++ [fld]) rest

/-- Modelled from the spec: the ordered field list of the descriptor. A field descriptor
is immutable once it is added, and a later field of the same name is advisory only (first
writer wins): the list holds, in the order of the calls, the first field of each name. -/
def Table.Fields (tbl : Table) : List Field :=
  keepFirst [] tbl.AddedFields

/-- Modelled from the spec: `models.Schema` is not among the sources; the catalog of one
logical database holds the backend address, the table names and the cache that maps a
table name to its descriptor. -/
structure Schema where
  Db : String
  Address : String
  TableNames : List String
  Tables : List (String × Table)

/-- Modelled from the spec: the constructor `models.NewTable(table, schema)`, a descriptor
of that name on which no call was made. -/
def NewTable (table : String) (_s : Schema) : Table :=
  { Name := table, Calls := [] }

/-- Modelled from the spec: the method `Schema.ChooseBackend`, the address of the backend. -/
def Schema.ChooseBackend (s : Schema) : String :=
  s.Address

/-- The map index expression `m.schema.Tables[table]` with its `ok` flag. -/
def lookupTable (table : String) : List (String × Table) → Option Table
  | [] => none
  | (k, v) :: rest => if k = table then some v else lookupTable table rest

/-- The map assignment `m.schema.Tables[table] = tbl`. -/
def setTable (table : String) (tbl : Table) : List (String × Table) → List (String × Table)
  | [] => [(table, tbl)]
  | (k, v) :: rest => if k = table then (table, tbl) :: rest else (k, v) :: setTable table tbl rest

/-! ## The adapter -/

/-- The record `datasource.SourceFeatures`. -/
structure SourceFeatures where
  Scan : Bool
  Seek : Bool
  Where : Bool
  GroupBy : Bool
  Sort_ : Bool
  Aggregations : Bool
  deriving DecidableEq, Repr

/-- The package variable `esFeatures`; nothing in the package assigns to it. -/
def esFeatures : SourceFeatures :=
  { Scan := true, Seek := true, Where := true, GroupBy := true, Sort_ := true,
    Aggregations := true }

/-- The adapter `ElasticsearchDataSource`; `schema` is a pointer and may be nil. -/
structure ElasticsearchDataSource where
  schema : Option Schema

/-- The method `Features`. -/
def ElasticsearchDataSource.Features (_m : ElasticsearchDataSource) : SourceFeatures :=
  esFeatures

/-- The method `Close`: no error, the adapter is left as it is. -/
def ElasticsearchDataSource.Close (m : ElasticsearchDataSource) : Option String × ElasticsearchDataSource :=
  (none, m)

/-- The text of the description of an object property. -/
def objectDescription : String := "\x7b\"type\":\"object\"\x7d"

/-- The body of the loop of `buildEsFields` for one key `field` of `jh`; `self` is the
function called for the properties of an object, and `none` is a panic of an accessor. -/
def buildEsFieldsBody (g : Accessors) (self : Table → JsonHelper → String → Nat → Option Table)
    (jh : JsonHelper) (pfx : String) (depth : Nat) (tbl : Table) (field : String) :
    Option Table :=
  match g.Helper jh field with
  | none => none
  | some h =>
    if h.length > 0 then
      let jb := DriverValue.json h
      let fieldName := pfx ++ field
      match g.StringOf h "type" with
      | none => none
      | some esType =>
        if esType = "boolean" then
          let tbl := tbl.AddValues [.str fieldName, .str esType, .str "YES", .str "", .null, jb]
          some (tbl.AddField (NewField fieldName .BoolType 1 jb))
        else if esType = "string" then
          let tbl := tbl.AddValues [.str fieldName, .str esType, .str "YES", .str "", .null, jb]
          some (tbl.AddField (NewField fieldName .StringType 512 jb))
        else if esType = "date" then
          let tbl := tbl.AddValues [.str fieldName, .str esType, .str "YES", .str "", .null, jb]
          some (tbl.AddField (NewField fieldName .TimeType 4 jb))
        else if esType = "int" ∨ esType = "long" ∨ esType = "integer" then
          let tbl := tbl.AddValues [.str fieldName, .str esType, .str "YES", .str "", .null, jb]
          some (tbl.AddField (NewField fieldName .IntType 8 jb))
        else if esType = "nested" then
          let tbl := tbl.AddValues [.str fieldName, .str esType, .str "YES", .str "", .null, jb]
          some (tbl.AddField (NewField fieldName .StringType 2000 jb))
        else
          let tbl := tbl.AddValues
            [.str fieldName, .str "object", .str "YES", .str "", .null, .str objectDescription]
          let fld := NewField fieldName .StringType 2000 (.str objectDescription)
          match g.Helper h "properties" with
          | none => none
          | some props =>
            match (if props.length > 0 then self tbl props (fieldName ++ ".") (depth + 1)
                else some tbl) with
            | none => none
            | some tbl => some (tbl.AddField fld)
    else some tbl

/-- The loop `for field := range jh`: the body for each key in turn, until a panic. -/
def forKeys (body : Table → String → Option Table) : List String → Table → Option Table
  | [], tbl => some tbl
  | field :: rest, tbl =>
    match body tbl field with
    | none => none
    | some tbl => forKeys body rest tbl

/-- The function `buildEsFields` with a bound on the number of nested calls. -/
def buildEsFieldsFuel (g : Accessors) :
    Nat → Schema → Table → JsonHelper → String → Nat → Option Table
  | 0, _, tbl, _, _, _ => some tbl
  | fuel + 1, s, tbl, jh, pfx, depth =>
    forKeys (buildEsFieldsBody g (buildEsFieldsFuel g fuel s) jh pfx depth) jh.Keys tbl

/-- The function `buildEsFields`; `none` is a panic of an accessor. A call on the
properties of an object is a call on a less deeply nested mapping, so the height of `jh`
bounds the nested calls (`buildEsFieldsFuel_eq` and `buildEsFields_eq` below). -/
def buildEsFields (g : Accessors) (s : Schema) (tbl : Table) (jh : JsonHelper) (pfx : String)
    (depth : Nat) : Option Table :=
  buildEsFieldsFuel g (heightMembers jh + 1) s tbl jh pfx depth

/-- The reply of `gou.JsonHelperHttp("GET", url, nil)`: the decoded body and the error. -/
abbrev Http := String → JsonHelper × Option String

/-- What a call of `loadTableSchema` returns and does: the two results, the adapter after
the call, and the URLs it requested from the backend; `panics` says that the call ended
in a panic of an accessor and returned nothing. -/
structure Outcome where
  tbl : Option Table
  err : Option String
  ds : ElasticsearchDataSource
  requests : List String
  panics : Bool

/-- The first key that is not `_default_`, and `user` when there is none. -/
def chooseIndexType (respKeys : List String) : String :=
  match respKeys.find? (fun key => key ≠ "_default_") with
  | some key => key
  | none => "user"

/-- The calls that `loadTableSchema` makes on a new descriptor before `buildEsFields`. -/
def implicitCalls : List TableCall :=
  [.AddField (NewField "_id" .StringType 24 (.str "AUTOGEN")),
   .AddField (NewField "type" .StringType 24 (.str "tbd")),
   .AddField (NewField "_score" .NumberType 24 (.str "Created per Search By Elasticsearch")),
   .AddValues [.str "_id", .str "string", .str "NO", .str "PRI", .str "AUTOGEN", .str ""],
   .AddValues [.str "type", .str "string", .str "NO", .str "", .null, .str "tbd"],
   .AddValues [.str "_score", .str "float", .str "NO", .str "", .null, .str "Created per search"]]

/-- The method `loadTableSchema`. -/
def ElasticsearchDataSource.loadTableSchema (g : Accessors) (http : Http)
    (m : ElasticsearchDataSource) (table : String) : Outcome :=
  match m.schema with
  | none =>
    { tbl := none, err := some "no schema in use", ds := m, requests := [], panics := false }
  | some s =>
    match lookupTable table s.Tables with
    | some tbl => { tbl := some tbl, err := none, ds := m, requests := [], panics := false }
    | none =>
      let host := s.ChooseBackend
      let tbl := NewTable table s
      let indexUrl := host ++ "/" ++ tbl.Name ++ "/_mapping"
      -- the error of the request is logged, and the reply is used whatever it says
      let (respJh, _err) := http indexUrl
      match g.Helper respJh (table ++ ".mappings") with
      | none => { tbl := none, err := none, ds := m, requests := [indexUrl], panics := true }
      | some respJh =>
        let respKeys := respJh.Keys
        if respKeys.length < 1 then
          { tbl := none, err := some "Could not process desribe", ds := m,
            requests := [indexUrl], panics := false }
        else
          let indexType := chooseIndexType respKeys
          match g.Helper respJh indexType with
          | none => { tbl := none, err := none, ds := m, requests := [indexUrl], panics := true }
          | some jh =>
            match g.Helper jh "properties" with
            | none =>
              { tbl := none, err := none, ds := m, requests := [indexUrl], panics := true }
            | some jh =>
              let tbl := tbl.AddField (NewField "_id" .StringType 24 (.str "AUTOGEN"))
              let tbl := tbl.AddField (NewField "type" .StringType 24 (.str "tbd"))
              let tbl := tbl.AddField
                (NewField "_score" .NumberType 24 (.str "Created per Search By Elasticsearch"))
              let tbl := tbl.AddValues
                [.str "_id", .str "string", .str "NO", .str "PRI", .str "AUTOGEN", .str ""]
              let tbl := tbl.AddValues
                [.str "type", .str "string", .str "NO", .str "", .null, .str "tbd"]
              let tbl := tbl.AddValues
                [.str "_score", .str "float", .str "NO", .str "", .null,
                  .str "Created per search"]
              match buildEsFields g s tbl jh "" 0 with
              | none =>
                { tbl := none, err := none, ds := m, requests := [indexUrl], panics := true }
              | some tbl =>
                { tbl := some tbl, err := none,
                  ds := { m with schema := some { s with Tables := setTable table tbl s.Tables } },
                  requests := [indexUrl], panics := false }

/-- The method `Table`. -/
def ElasticsearchDataSource.Table (g : Accessors) (http : Http) (m : ElasticsearchDataSource)
    (table : String) : Outcome :=
  m.loadTableSchema g http table

/-! ## Table names and source tasks -/

/-- The function `sort.Strings`: the arrangement in increasing order. Go compares strings
byte by byte, which orders UTF-8 texts as their characters do. -/
def sortStrings (a : List String) : List String :=
  a.insertionSort (fun x y => x.data ≤ y.data)

/-- The method `loadTableNames`. The aliases are requested from a fixed URL; `none` is the
panic of the assignment `m.schema.TableNames = tables` through a nil schema. -/
def ElasticsearchDataSource.loadTableNames (http : Http) (m : ElasticsearchDataSource) :
    Option (Option String × ElasticsearchDataSource) :=
  let (jh, err) := http "http://localhost:9200/_aliases"
  match err with
  | some e => some (some e, m)
  | none =>
    let tables := jh.Keys.foldl (fun tables key => tables ++ [key]) []
    let tables := sortStrings tables
    match m.schema with
    | none => none
    | some s => some (none, { m with schema := some { s with TableNames := tables } })

/-- An entry of the From clause of a statement (`expr.SqlSource`): the name of the table. -/
structure SqlSource where
  Name : String

/-- A parsed select statement (`expr.SqlSelect`), as far as the adapter reads it. -/
structure SqlSelect where
  From : List SqlSource

/-- What a call of `SourceTask` returns and does: the two results, and the calls of the
translator `NewSqlToEs(tbl).Query(stmt)` it made. -/
structure TaskOutcome (Task : Type) where
  task : Option Task
  err : Option String
  queries : List (Table × SqlSelect)

/-- The method `SourceTask`. What it calls outside the file is given to it: `ToLower` is
`strings.ToLower`, `SchemaTable` is the method `m.schema.Table` of package `models`, and
`Query tbl stmt` is `NewSqlToEs(tbl).Query(stmt)`, none of which is among the sources.
`none` is a panic: the index `stmt.From[0]` of an empty list, or `m.schema.Db` of a nil
schema. -/
def ElasticsearchDataSource.SourceTask {Task : Type} (ToLower : String → String)
    (SchemaTable : Option Schema → String → Option Elasticsearch.Table × Option String)
    (Query : Elasticsearch.Table → SqlSelect → Option Task × Option String)
    (m : ElasticsearchDataSource) (stmt : SqlSelect) : Option (TaskOutcome Task) :=
  match stmt.From with
  | [] => none
  | first :: _ =>
    let tblName := ToLower first.Name
    let (tbl, _) := SchemaTable m.schema tblName
    match tbl with
    | none =>
      match m.schema with
      | none => none
      | some s =>
        some { task := none,
               err := some ("Could not find \x27" ++ s.Db ++ "\x27.\x27" ++ tblName
                 ++ "\x27 schema"),
               queries := [] }
    | some tbl =>
      let (resp, err) := Query tbl stmt
      match err with
      | some e => some { task := none, err := some e, queries := [(tbl, stmt)] }
      | none => some { task := resp, err := none, queries := [(tbl, stmt)] }

/-! ## Notions used in the statements -/

/-- The table `t₂` is `t₁` after more calls: the same name, and the calls of `t₁` first. -/
def Extends (t₁ t₂ : Table) : Prop :=
  t₂.Name = t₁.Name ∧ t₁.Calls <+: t₂.Calls

/-- The name in a describe row: its first cell. -/
def rowName (row : List DriverValue) : String :=
  match row with
  | .str name :: _ => name
  | _ => ""

/-- The names of the fields of a table, in their order. -/
def fieldNames (t : Table) : List String :=
  t.Fields.map (fun f => f.Name)

/-- The names in the describe rows of a table, in their order. -/
def rowNames (t : Table) : List String :=
  t.DescribeValues.map rowName

/-- The names of the fields that were passed to `AddField`, in the order of the calls. -/
def addedFieldNames (t : Table) : List String :=
  t.AddedFields.map (fun f => f.Name)

/-- The names of the describe rows among some calls, in the order of the calls. -/
def rowNamesOf (cs : List TableCall) : List String :=
  cs.filterMap (fun c => match c with
    | .AddField _ => none
    | .AddValues values => some (rowName values))

/-- The names of the fields among some calls, in the order of the calls. -/
def fieldNamesOf (cs : List TableCall) : List String :=
  cs.filterMap (fun c => match c with
    | .AddField fld => some fld.Name
    | .AddValues _ => none)

/-- The table `t₂` is `t₁` after more calls, and among these the names of the describe
rows are the names of the fields, each as often, in some order. -/
def Paired (t₁ t₂ : Table) : Prop :=
  ∃ cs : List TableCall, t₂.Calls = t₁.Calls ++ cs ∧ (rowNamesOf cs).Perm (fieldNamesOf cs)

/-- The table `t₂` is `t₁` after more calls, and among these the names of the describe
rows are the names of the fields in the same order. -/
def PairedInOrder (t₁ t₂ : Table) : Prop :=
  ∃ cs : List TableCall, t₂.Calls = t₁.Calls ++ cs ∧ rowNamesOf cs = fieldNamesOf cs

/-- The table `t₂` is `t₁` after the turn of a property called `name`: first one call of
`AddValues` with a row of that name, last one call of `AddField` with a field of that
name, and between them the calls `cs` for its own properties, whose names go together. -/
def Turn (name : String) (t₁ t₂ : Table) : Prop :=
  ∃ (row : List DriverValue) (fld : Field) (cs : List TableCall),
    t₂.Calls = t₁.Calls ++ .AddValues row :: (cs ++ [.AddField fld])
      ∧ rowName row = name ∧ fld.Name = name ∧ (rowNamesOf cs).Perm (fieldNamesOf cs)

/-- The table `t₂` is `t₁` after more calls, each under a name that starts with `p`. -/
def Under (p : String) (t₁ t₂ : Table) : Prop :=
  ∃ cs : List TableCall, t₂.Calls = t₁.Calls ++ cs
    ∧ (∀ n ∈ rowNamesOf cs, p.data <+: n.data) ∧ (∀ n ∈ fieldNamesOf cs, p.data <+: n.data)

/-- No property of the mapping has properties of its own. -/
def Flat (g : Accessors) (jh : JsonHelper) : Prop :=
  ∀ field ∈ jh.Keys, ∀ h props : JsonHelper,
    g.Helper jh field = some h → g.Helper h "properties" = some props → props.length = 0

/-- The type tags that have a case of their own in the switch of `buildEsFields`. -/
def recognisedTags : List String :=
  ["boolean", "string", "date", "int", "long", "integer", "nested"]

/-- The mapping on which `buildEsFields` is called for the property `field` of `jh`: its
properties, when the property has a definition, none of the recognised type tags, and
properties that are not empty. -/
def objectProperties (g : Accessors) (jh : JsonHelper) (field : String) : Option JsonHelper :=
  match g.Helper jh field with
  | none => none
  | some h =>
    if h.length > 0 then
      match g.StringOf h "type" with
      | none => none
      | some esType =>
        if esType ∈ recognisedTags then none
        else
          match g.Helper h "properties" with
          | none => none
          | some props => if props.length > 0 then some props else none
    else none

/-- The mapping that is reached from `jh` through the objects named by a path of keys,
each an object property of the mapping before it. -/
def descend (g : Accessors) : JsonHelper → List String → Option JsonHelper
  | jh, [] => some jh
  | jh, field :: rest =>
    if field ∈ jh.Keys then
      match objectProperties g jh field with
      | none => none
      | some props => descend g props rest
    else none

/-- The prefix for the properties below a path of objects: each key followed by a dot. -/
def pathPrefix (pfx : String) : List String → String
  | [] => pfx
  | field :: rest => pathPrefix (pfx ++ field ++ ".") rest

/-- A property definition with a type tag only. -/
def typed (tag : String) : Json := .obj [("type", .str tag)]

/-- A schema without tables, and its adapter. -/
def emptySchema : Schema := { Db := "es", Address := "http://localhost:9200", TableNames := [], Tables := [] }

/-- A mapping with an object property `o` whose properties hold a date `b`. -/
def objectMapping : JsonHelper :=
  [("o", .obj [("properties", .obj [("b", typed "date")])])]

/-- A mapping with a property `n` of type `nested` whose properties hold a string `b`. -/
def nestedMapping : JsonHelper :=
  [("n", .obj [("type", .str "nested"), ("properties", .obj [("b", typed "string")])])]

/-- The number of dots in a text. -/
def dots (name : String) : Nat :=
  name.data.count '.'

/-- The number of segments of a dotted path: the keys it is split into. -/
def segments (name : String) : Nat :=
  (splitPath name).length

/-- A mapping in which objects are nested `n` levels deep: the property `a` is a string
at level 0, and an object whose properties are the mapping of level `n` at level `n + 1`. -/
def chainMapping : Nat → JsonHelper
  | 0 => [("a", typed "string")]
  | n + 1 => [("a", .obj [("properties", .obj (chainMapping n))])]

/-- The dotted path of the innermost property of `chainMapping n`. -/
def chainName : Nat → String
  | 0 => "a"
  | n + 1 => "a." ++ chainName n

/-- The three fields that `loadTableSchema` gives every table before those of the mapping. -/
def implicitFields : List Field :=
  [NewField "_id" .StringType 24 (.str "AUTOGEN"),
   NewField "type" .StringType 24 (.str "tbd"),
   NewField "_score" .NumberType 24 (.str "Created per Search By Elasticsearch")]

/-- The three describe rows of the implicit fields. -/
def implicitRows : List (List DriverValue) :=
  [[.str "_id", .str "string", .str "NO", .str "PRI", .str "AUTOGEN", .str ""],
   [.str "type", .str "string", .str "NO", .str "", .null, .str "tbd"],
   [.str "_score", .str "float", .str "NO", .str "", .null, .str "Created per search"]]

/-- The descriptor of a discovery when `buildEsFields` is called on it. -/
def implicitTable (table : String) : Table :=
  { Name := table, Calls := implicitCalls }

/-- The table is cached under the name `table` in the schema of the adapter. -/
def Cached (m : ElasticsearchDataSource) (table : String) (tbl : Table) : Prop :=
  ∃ s, m.schema = some s ∧ lookupTable table s.Tables = some tbl

/-- The adapter after a series of calls of `Table`, each with its own backend replies. -/
def runTables (g : Accessors) (m : ElasticsearchDataSource) :
    List (Http × String) → ElasticsearchDataSource
  | [] => m
  | (http, table) :: rest => runTables g (m.Table g http table).ds rest

/-- A backend whose index `t` has the type `user` with the string property `title`. -/
def titleHttp : Http := fun _ =>
  ([("t", .obj [("mappings", .obj [("user", .obj [("properties",
      .obj [("title", typed "string")])])])])], none)

/-- A backend that has nothing to say about any index. -/
def emptyHttp : Http := fun _ => ([], none)

/-- A backend whose reply comes with an error and yet holds a mapping for the index `t`. -/
def failingHttp : Http := fun _ =>
  ([("t", .obj [("mappings", .obj [("user", .obj [("properties",
      .obj [("title", .obj [("type", .str "string"), ("boost", .null)])])])])])],
    some "json: cannot unmarshal number 1e999 into Go value of type float64")

/-- A backend whose index `t` declares a property named `_id` itself. -/
def idHttp : Http := fun _ =>
  ([("t", .obj [("mappings", .obj [("user", .obj [("properties",
      .obj [("_id", typed "string")])])])])], none)

/-- An adapter on a schema without cached tables. -/
def freshSource : ElasticsearchDataSource := { schema := some emptySchema }

/-- A backend whose index `t` has the object property `o` with the date `b`. -/
def objectHttp : Http := fun _ =>
  ([("t", .obj [("mappings", .obj [("user", .obj [("properties", .obj objectMapping)])])])],
    none)

/-- A backend with the aliases `logs`, `Users` and `articles`, enumerated in this order. -/
def aliasHttp : Http := fun _ =>
  ([("logs", .obj []), ("Users", .obj []), ("articles", .obj [])], none)

/-- A schema whose cache holds the table `users`, and its adapter. -/
def usersSource : ElasticsearchDataSource :=
  { schema := some { emptySchema with Tables := [("users", NewTable "users" emptySchema)] } }

/-- A lookup of the table in the cache of the schema, in the place of `m.schema.Table`. -/
def cacheTable (schema : Option Schema) (name : String) : Option Table × Option String :=
  match schema with
  | none => (none, some "no schema")
  | some s =>
    match lookupTable name s.Tables with
    | some tbl => (some tbl, none)
    | none => (none, some "no table")

/-- Lower case of the ASCII letters, in the place of `strings.ToLower`. -/
def asciiLower (name : String) : String :=
  String.mk (name.data.map Char.toLower)

/-- A translator that answers the name of the table as the task. -/
def nameQuery (tbl : Table) (_stmt : SqlSelect) : Option String × Option String :=
  (some tbl.Name, none)

end Elasticsearch

/-! # The MySQL functions of `frontends/mysqlfe/mysql_functions.go` -/

namespace Mysqlfe

/-- A value of `qlbridge/value`, as far as the functions tell the kinds apart; `NilValue`
also stands for a nil interface value. -/
inductive Value where
  | StringValue (v : String) : Value
  | IntValue (v : Int) : Value
  | BoolValue (v : Bool) : Value
  | NilValue : Value

/-- The interface `expr.EvalContext`: `Get` answers the value of a variable and whether
the variable is there. -/
structure EvalContext where
  Get : String → Value × Bool

/-- The function `DatabaseName`; the first result is the text of the `value.StringValue`. -/
def DatabaseName (ctx : EvalContext) : String × Bool :=
  match ctx.Get "@@database" with
  | (dbVal, true) =>
    match dbVal with
    | .StringValue dbValStr => (dbValStr, true)
    | _ => ("", true)
  | (_, false) => ("", true)

/-- The function `ConnectionId`; the first result is the number of the `value.IntValue`. -/
def ConnectionId (ctx : EvalContext) : Int × Bool :=
  match ctx.Get "@@connection_id" with
  | (connVal, true) =>
    match connVal with
    | .IntValue connInt => (connInt, true)
    | _ => (1, true)
  | (_, false) => (1, true)

/-- The function `CurrentUser`. -/
def CurrentUser (_ctx : EvalContext) : String × Bool :=
  ("root", true)

/-- A context of a connection: the database `es` and the connection 11. -/
def sampleContext : EvalContext :=
  { Get := fun name =>
      if name = "@@database" then (.StringValue "es", true)
      else if name = "@@connection_id" then (.IntValue 11, true)
      else (.NilValue, false) }

end Mysqlfe

namespace Elasticsearch

/-! ## Nesting height and the accessors of the examples -/

theorem lookupKey_height {name : String} {m : JsonHelper} {v : Json}
    (h : lookupKey name m = some v) : v.height ≤ heightMembers m := by
  induction m with
  | nil => simp [lookupKey] at h
  | cons e rest ih =>
    obtain ⟨k, w⟩ := e
    simp only [lookupKey] at h
    simp only [heightMembers]
    split at h
    · simp only [Option.some.injEq] at h
      subst h
      exact le_max_left _ _
    · exact le_trans (ih h) (le_max_right _ _)

theorem getPath_height {ks : List String} {v w : Json}
    (h : getPath ks v = some w) : w.height ≤ v.height := by
  induction ks generalizing v with
  | nil =>
    simp only [getPath, Option.some.injEq] at h
    subst h
    exact le_refl _
  | cons k rest ih =>
    cases v with
    | obj m =>
      simp only [getPath] at h
      split at h
      · next u hu =>
        have h1 := ih h
        have h2 := lookupKey_height hu
        simp only [Json.height]
        omega
      · simp at h
    | null => simp [getPath] at h
    | bool b => simp [getPath] at h
    | num n => simp [getPath] at h
    | str t => simp [getPath] at h
    | arr xs => simp [getPath] at h

theorem splitDots_ne_nil (cs : List Char) : splitDots cs ≠ [] := by
  induction cs with
  | nil => simp [splitDots]
  | cons c rest ih =>
    simp only [splitDots]
    split
    · simp
    · split <;> simp

theorem splitPath_ne_nil (n : String) : splitPath n ≠ [] := by
  simp [splitPath, splitDots_ne_nil]

/-- An object found under a dotted key path lies at least one level below the map. -/
theorem dottedGet_obj_height {j m : JsonHelper} {n : String}
    (h : dottedGet j n = some (.obj m)) : heightMembers m + 1 ≤ heightMembers j := by
  unfold dottedGet at h
  cases hp : splitPath n with
  | nil => exact absurd hp (splitPath_ne_nil n)
  | cons k rest =>
    rw [hp] at h
    simp only [getPath] at h
    split at h
    · next u hu =>
      have h1 := getPath_height h
      have h2 := lookupKey_height hu
      simp only [Json.height] at h1
      omega
    · simp at h

/-- A helper that is not empty lies at least one level below the map it was taken from. -/
theorem dottedHelper_height {j : JsonHelper} {n : String} (h : (dottedHelper j n).length > 0) :
    heightMembers (dottedHelper j n) + 1 ≤ heightMembers j := by
  unfold dottedHelper at h ⊢
  split
  · next m hm => exact dottedGet_obj_height hm
  · next hne =>
    split at h
    · next m hm => exact absurd hm (hne m)
    · simp at h

/-- The accessors of the examples answer helpers that lie inside the map. -/
theorem plainAccessors_inside : plainAccessors.Inside := by
  intro j n h hh hlen
  simp only [plainAccessors, Option.some.injEq] at hh
  subst hh
  have := dottedHelper_height hlen
  omega

/-! ## The nested calls of `buildEsFields` end -/

/-- The body of the loop uses `self` only on the properties of the object at `field`,
when these are not empty. -/
theorem buildEsFieldsBody_congr (g : Accessors)
    (self₁ self₂ : Table → JsonHelper → String → Nat → Option Table)
    (jh : JsonHelper) (pfx : String) (depth : Nat) (tbl : Table) (field : String)
    (h : ∀ hh props : JsonHelper, g.Helper jh field = some hh → 0 < hh.length →
      g.Helper hh "properties" = some props → 0 < props.length →
      ∀ t p d, self₁ t props p d = self₂ t props p d) :
    buildEsFieldsBody g self₁ jh pfx depth tbl field
      = buildEsFieldsBody g self₂ jh pfx depth tbl field := by
  unfold buildEsFieldsBody
  cases hd : g.Helper jh field with
  | none => rfl
  | some hh =>
    dsimp only
    by_cases hlen : hh.length > 0
    · cases hp : g.Helper hh "properties" with
      | none => rfl
      | some props =>
        by_cases hpl : props.length > 0
        · simp only [hlen, if_true, hpl, h hh props hd hlen hp hpl]
        · simp only [hlen, if_true, hpl, if_false]
    · simp only [hlen, if_false]

theorem forKeys_congr (f₁ f₂ : Table → String → Option Table) (ks : List String)
    (h : ∀ t k, k ∈ ks → f₁ t k = f₂ t k) (tbl : Table) :
    forKeys f₁ ks tbl = forKeys f₂ ks tbl := by
  induction ks generalizing tbl with
  | nil => rfl
  | cons k rest ih =>
    simp only [forKeys]
    rw [h tbl k (List.mem_cons_self _ _)]
    cases f₂ tbl k with
    | none => rfl
    | some t => exact ih (fun t k2 hk => h t k2 (List.mem_cons_of_mem _ hk)) t

/-- Any two bounds above the nesting height of the mapping give the same result. -/
theorem buildEsFieldsFuel_stable (g : Accessors) (hg : g.Inside) (s : Schema) :
    ∀ (f₁ f₂ : Nat) (tbl : Table) (jh : JsonHelper) (pfx : String) (depth : Nat),
      heightMembers jh < f₁ → heightMembers jh < f₂ →
      buildEsFieldsFuel g f₁ s tbl jh pfx depth = buildEsFieldsFuel g f₂ s tbl jh pfx depth := by
  intro f₁
  induction f₁ with
  | zero => intro f₂ tbl jh pfx depth h1; omega
  | succ a ih =>
    intro f₂ tbl jh pfx depth h1 h2
    cases f₂ with
    | zero => omega
    | succ b =>
      simp only [buildEsFieldsFuel]
      apply forKeys_congr
      intro t k _
      apply buildEsFieldsBody_congr
      intro hh props hd hlen hp hpl t2 p d
      have e1 := hg jh k hh hd hlen
      have e2 := hg hh "properties" props hp hpl
      exact ih b t2 _ p d (by omega) (by omega)

/-- Enough fuel gives the result of `buildEsFields`: every bound above the nesting height
of the mapping gives the same result. -/
theorem buildEsFieldsFuel_eq (g : Accessors) (hg : g.Inside) (s : Schema) (fuel : Nat)
    (tbl : Table) (jh : JsonHelper) (pfx : String) (depth : Nat)
    (h : heightMembers jh < fuel) :
    buildEsFieldsFuel g fuel s tbl jh pfx depth = buildEsFields g s tbl jh pfx depth :=
  buildEsFieldsFuel_stable g hg s fuel _ tbl jh pfx depth h (Nat.lt_succ_self _)

/-- The defining equation of `buildEsFields`: the loop over the keys of `jh`, whose
body calls `buildEsFields` itself on the properties of an object. -/
theorem buildEsFields_eq (g : Accessors) (hg : g.Inside) (s : Schema) (tbl : Table)
    (jh : JsonHelper) (pfx : String) (depth : Nat) :
    buildEsFields g s tbl jh pfx depth
      = forKeys (buildEsFieldsBody g (buildEsFields g s) jh pfx depth) jh.Keys tbl := by
  show buildEsFieldsFuel g (heightMembers jh + 1) s tbl jh pfx depth = _
  simp only [buildEsFieldsFuel]
  apply forKeys_congr
  intro t k _
  apply buildEsFieldsBody_congr
  intro hh props hd hlen hp hpl t2 p d
  have e1 := hg jh k hh hd hlen
  have e2 := hg hh "properties" props hp hpl
  exact buildEsFieldsFuel_eq g hg s _ t2 _ p d (by omega)

/-! ## What a call adds to the table -/

theorem Extends.refl (t : Table) : Extends t t :=
  ⟨rfl, List.prefix_refl _⟩

theorem Extends.trans {t₁ t₂ t₃ : Table} (h₁ : Extends t₁ t₂) (h₂ : Extends t₂ t₃) :
    Extends t₁ t₃ :=
  ⟨h₂.1.trans h₁.1, h₁.2.trans h₂.2⟩

theorem Extends.addField (t : Table) (fld : Field) : Extends t (t.AddField fld) :=
  ⟨rfl, List.prefix_append _ _⟩

theorem Extends.addValues (t : Table) (row : List DriverValue) : Extends t (t.AddValues row) :=
  ⟨rfl, List.prefix_append _ _⟩

theorem Extends.mem_calls {t₁ t₂ : Table} (h : Extends t₁ t₂) {c : TableCall}
    (hc : c ∈ t₁.Calls) : c ∈ t₂.Calls :=
  h.2.subset hc

theorem Extends.rows_kept {t₁ t₂ : Table} (h : Extends t₁ t₂) :
    t₁.DescribeValues <+: t₂.DescribeValues := by
  obtain ⟨_, cs, hcs⟩ := h
  simp only [Table.DescribeValues, ← hcs, List.filterMap_append]
  exact List.prefix_append _ _

theorem Extends.added_kept {t₁ t₂ : Table} (h : Extends t₁ t₂) :
    t₁.AddedFields <+: t₂.AddedFields := by
  obtain ⟨_, cs, hcs⟩ := h
  simp only [Table.AddedFields, ← hcs, List.filterMap_append]
  exact List.prefix_append _ _

theorem Extends.mem_rows {t₁ t₂ : Table} (h : Extends t₁ t₂) {row : List DriverValue}
    (hr : row ∈ t₁.DescribeValues) : row ∈ t₂.DescribeValues :=
  h.rows_kept.subset hr

theorem Extends.mem_added {t₁ t₂ : Table} (h : Extends t₁ t₂) {f : Field}
    (hf : f ∈ t₁.AddedFields) : f ∈ t₂.AddedFields :=
  h.added_kept.subset hf

theorem extends_of_ite {c : Prop} [Decidable c] {o : Option Table} {t mid : Table}
    (ho : ∀ t2, o = some t2 → Extends t t2) (h : (if c then o else some t) = some mid) :
    Extends t mid := by
  split_ifs at h
  · exact ho _ h
  · simp only [Option.some.injEq] at h
    subst h
    exact Extends.refl _

theorem buildEsFieldsBody_extends (g : Accessors)
    (self : Table → JsonHelper → String → Nat → Option Table)
    (hself : ∀ t j p d t2, self t j p d = some t2 → Extends t t2)
    (jh : JsonHelper) (pfx : String) (depth : Nat) (tbl : Table) (field : String)
    (tbl2 : Table) (h : buildEsFieldsBody g self jh pfx depth tbl field = some tbl2) :
    Extends tbl tbl2 := by
  unfold buildEsFieldsBody at h
  split at h
  · simp at h
  · next hh hd =>
    split_ifs at h with hlen
    · simp only [] at h
      split at h
      · simp at h
      · next esType ht =>
        split_ifs at h
        all_goals first
          | (simp only [Option.some.injEq] at h
             subst h
             exact (Extends.addValues _ _).trans (Extends.addField _ _))
          | (split at h
             · simp at h
             · next props hp =>
               split at h
               · simp at h
               · next mid hmid =>
                 simp only [Option.some.injEq] at h
                 subst h
                 exact (Extends.addValues _ _).trans
                   ((extends_of_ite (fun t2 => hself _ _ _ _ t2) hmid).trans
                     (Extends.addField _ _)))
    · simp only [Option.some.injEq] at h
      subst h
      exact Extends.refl _

theorem forKeys_extends (body : Table → String → Option Table)
    (hbody : ∀ t k t2, body t k = some t2 → Extends t t2) (ks : List String) :
    ∀ (tbl tbl2 : Table), forKeys body ks tbl = some tbl2 → Extends tbl tbl2 := by
  induction ks with
  | nil =>
    intro tbl tbl2 h
    simp only [forKeys, Option.some.injEq] at h
    subst h
    exact Extends.refl _
  | cons k rest ih =>
    intro tbl tbl2 h
    simp only [forKeys] at h
    split at h
    · simp at h
    · next t ht => exact (hbody _ _ _ ht).trans (ih _ _ h)

theorem buildEsFieldsFuel_extends (g : Accessors) (s : Schema) :
    ∀ (fuel : Nat) (tbl : Table) (jh : JsonHelper) (pfx : String) (depth : Nat) (tbl2 : Table),
      buildEsFieldsFuel g fuel s tbl jh pfx depth = some tbl2 → Extends tbl tbl2 := by
  intro fuel
  induction fuel with
  | zero =>
    intro tbl jh pfx depth tbl2 h
    simp only [buildEsFieldsFuel, Option.some.injEq] at h
    subst h
    exact Extends.refl _
  | succ n ih =>
    intro tbl jh pfx depth tbl2 h
    simp only [buildEsFieldsFuel] at h
    exact forKeys_extends _
      (fun t k t2 => buildEsFieldsBody_extends g _ (fun t j p d t3 => ih t j p d t3) jh pfx depth
        t k t2) _ _ _ h

/-- A call of `buildEsFields` that returns keeps the name of the table and every call
made on it before, in their places, and makes its own calls after them. -/
theorem buildEsFields_extends (g : Accessors) (s : Schema) (tbl : Table) (jh : JsonHelper)
    (pfx : String) (depth : Nat) (tbl2 : Table)
    (h : buildEsFields g s tbl jh pfx depth = some tbl2) : Extends tbl tbl2 :=
  buildEsFieldsFuel_extends g s _ tbl jh pfx depth tbl2 h

/-- A loop that returns has made the turn of each of its keys: the table before the turn
comes after the table before the loop, and the table after the loop after the table
after the turn. -/
theorem forKeys_turn (body : Table → String → Option Table)
    (hbody : ∀ t k t2, body t k = some t2 → Extends t t2) (ks : List String) (k : String)
    (hk : k ∈ ks) :
    ∀ (tbl tbl2 : Table), forKeys body ks tbl = some tbl2 →
      ∃ t t2, Extends tbl t ∧ body t k = some t2 ∧ Extends t2 tbl2 := by
  induction ks with
  | nil => simp at hk
  | cons k0 rest ih =>
    intro tbl tbl2 h
    simp only [forKeys] at h
    split at h
    · simp at h
    · next t1 ht1 =>
      rcases List.mem_cons.mp hk with rfl | hrest
      · exact ⟨tbl, t1, Extends.refl _, ht1, forKeys_extends body hbody rest _ _ h⟩
      · obtain ⟨t, t2, he, hb, he2⟩ := ih hrest t1 tbl2 h
        exact ⟨t, t2, (hbody _ _ _ ht1).trans he, hb, he2⟩

/-- The loop of a call of `buildEsFields` that returns has made the turn of each key,
with the function of the nested calls that the fuel leaves. -/
theorem buildEsFields_turn (g : Accessors) (s : Schema) (tbl : Table) (jh : JsonHelper)
    (pfx : String) (depth : Nat) (tbl2 : Table) (k : String) (hk : k ∈ jh.Keys)
    (h : buildEsFields g s tbl jh pfx depth = some tbl2) :
    ∃ t t2, Extends tbl t
      ∧ buildEsFieldsBody g (buildEsFieldsFuel g (heightMembers jh) s) jh pfx depth t k = some t2
      ∧ Extends t2 tbl2 :=
  forKeys_turn _
    (fun t k t2 => buildEsFieldsBody_extends g _
      (fun t j p d t3 => buildEsFieldsFuel_extends g s _ t j p d t3) jh pfx depth t k t2)
    jh.Keys k hk tbl tbl2 h

/-! ## Describe rows and fields go together -/

theorem rowNamesOf_append (a b : List TableCall) :
    rowNamesOf (a ++ b) = rowNamesOf a ++ rowNamesOf b := by
  simp [rowNamesOf, List.filterMap_append]

theorem fieldNamesOf_append (a b : List TableCall) :
    fieldNamesOf (a ++ b) = fieldNamesOf a ++ fieldNamesOf b := by
  simp [fieldNamesOf, List.filterMap_append]

theorem rowNames_eq (t : Table) : rowNames t = rowNamesOf t.Calls := by
  simp only [rowNames, Table.DescribeValues, rowNamesOf, List.map_filterMap]
  congr 1
  funext c
  cases c <;> rfl

theorem addedFieldNames_eq (t : Table) : addedFieldNames t = fieldNamesOf t.Calls := by
  simp only [addedFieldNames, Table.AddedFields, fieldNamesOf, List.map_filterMap]
  congr 1
  funext c
  cases c <;> rfl

theorem paired_refl (t : Table) : Paired t t :=
  ⟨[], by simp, List.Perm.refl _⟩

theorem paired_trans {t₁ t₂ t₃ : Table} (h₁ : Paired t₁ t₂) (h₂ : Paired t₂ t₃) :
    Paired t₁ t₃ := by
  obtain ⟨cs₁, hc₁, hp₁⟩ := h₁
  obtain ⟨cs₂, hc₂, hp₂⟩ := h₂
  refine ⟨cs₁ ++ cs₂, ?_, ?_⟩
  · rw [hc₂, hc₁, List.append_assoc]
  · rw [rowNamesOf_append, fieldNamesOf_append]
    exact hp₁.append hp₂

theorem turn_add {name : String} {t : Table} {row : List DriverValue} {fld : Field}
    (hrow : rowName row = name) (hfld : fld.Name = name) :
    Turn name t ((t.AddValues row).AddField fld) :=
  ⟨row, fld, [], by simp [Table.AddField, Table.AddValues], hrow, hfld, List.Perm.refl _⟩

theorem turn_around {name : String} {t mid : Table} {row : List DriverValue} {fld : Field}
    (hmid : Paired (t.AddValues row) mid) (hrow : rowName row = name) (hfld : fld.Name = name) :
    Turn name t (mid.AddField fld) := by
  obtain ⟨cs, hc, hp⟩ := hmid
  refine ⟨row, fld, cs, ?_, hrow, hfld, hp⟩
  simp [Table.AddField, hc, Table.AddValues]

theorem turn_paired {name : String} {t₁ t₂ : Table} (h : Turn name t₁ t₂) : Paired t₁ t₂ := by
  obtain ⟨row, fld, cs, hc, hrow, hfld, hp⟩ := h
  refine ⟨.AddValues row :: (cs ++ [.AddField fld]), hc, ?_⟩
  have h1 : rowNamesOf (.AddValues row :: (cs ++ [.AddField fld])) = name :: rowNamesOf cs := by
    simp [rowNamesOf, List.filterMap_append, hrow]
  have h2 : fieldNamesOf (.AddValues row :: (cs ++ [.AddField fld]))
      = fieldNamesOf cs ++ [name] := by
    simp [fieldNamesOf, List.filterMap_append, hfld]
  rw [h1, h2]
  exact (List.Perm.cons name hp).trans (List.perm_append_singleton name _).symm

theorem paired_extends {t₁ t₂ : Table} (hn : t₂.Name = t₁.Name) (h : Paired t₁ t₂) :
    Extends t₁ t₂ := by
  obtain ⟨cs, hc, _⟩ := h
  exact ⟨hn, ⟨cs, hc.symm⟩⟩

theorem paired_of_ite {c : Prop} [Decidable c] {o : Option Table} {t mid : Table}
    (ho : ∀ t2, o = some t2 → Paired t t2) (h : (if c then o else some t) = some mid) :
    Paired t mid := by
  split_ifs at h
  · exact ho _ h
  · simp only [Option.some.injEq] at h
    subst h
    exact paired_refl _

/-- The turn of the loop for a property with a definition, whatever its type tag: when
it returns, it has called `AddValues` first and `AddField` last, under the name
`pfx ++ field`. -/
theorem buildEsFieldsBody_turn (g : Accessors)
    (self : Table → JsonHelper → String → Nat → Option Table)
    (hself : ∀ t j p d t2, self t j p d = some t2 → Paired t t2)
    (jh : JsonHelper) (pfx : String) (depth : Nat) (tbl : Table) (field : String)
    (hh : JsonHelper) (hd : g.Helper jh field = some hh) (hlen : hh.length > 0)
    (tbl2 : Table) (h : buildEsFieldsBody g self jh pfx depth tbl field = some tbl2) :
    Turn (pfx ++ field) tbl tbl2 := by
  unfold buildEsFieldsBody at h
  simp only [hd, hlen, if_true] at h
  split at h
  · simp at h
  · next esType ht =>
    split_ifs at h
    all_goals first
      | (simp only [Option.some.injEq] at h
         subst h
         exact turn_add rfl rfl)
      | (split at h
         · simp at h
         · next props hp =>
           split at h
           · simp at h
           · next mid hmid =>
             simp only [Option.some.injEq] at h
             subst h
             exact turn_around (paired_of_ite (fun t2 => hself _ _ _ _ t2) hmid) rfl rfl)

/-- The turn of the loop for a property without a definition leaves the table as it is. -/
theorem buildEsFieldsBody_empty (g : Accessors)
    (self : Table → JsonHelper → String → Nat → Option Table)
    (jh : JsonHelper) (pfx : String) (depth : Nat) (tbl : Table) (field : String)
    (hh : JsonHelper) (hd : g.Helper jh field = some hh) (hlen : hh.length = 0) :
    buildEsFieldsBody g self jh pfx depth tbl field = some tbl := by
  unfold buildEsFieldsBody
  simp [hd, hlen]

theorem buildEsFieldsBody_paired (g : Accessors)
    (self : Table → JsonHelper → String → Nat → Option Table)
    (hself : ∀ t j p d t2, self t j p d = some t2 → Paired t t2)
    (jh : JsonHelper) (pfx : String) (depth : Nat) (tbl : Table) (field : String)
    (tbl2 : Table) (h : buildEsFieldsBody g self jh pfx depth tbl field = some tbl2) :
    Paired tbl tbl2 := by
  cases hd : g.Helper jh field with
  | none => simp [buildEsFieldsBody, hd] at h
  | some hh =>
    by_cases hlen : hh.length > 0
    · exact turn_paired (buildEsFieldsBody_turn g self hself jh pfx depth tbl field hh hd hlen
        tbl2 h)
    · rw [buildEsFieldsBody_empty g self jh pfx depth tbl field hh hd (by omega)] at h
      simp only [Option.some.injEq] at h
      subst h
      exact paired_refl _

theorem forKeys_paired (body : Table → String → Option Table)
    (hbody : ∀ t k t2, body t k = some t2 → Paired t t2) (ks : List String) :
    ∀ (tbl tbl2 : Table), forKeys body ks tbl = some tbl2 → Paired tbl tbl2 := by
  induction ks with
  | nil =>
    intro tbl tbl2 h
    simp only [forKeys, Option.some.injEq] at h
    subst h
    exact paired_refl _
  | cons k rest ih =>
    intro tbl tbl2 h
    simp only [forKeys] at h
    split at h
    · simp at h
    · next t ht => exact paired_trans (hbody _ _ _ ht) (ih _ _ h)

theorem buildEsFieldsFuel_paired (g : Accessors) (s : Schema) :
    ∀ (fuel : Nat) (tbl : Table) (jh : JsonHelper) (pfx : String) (depth : Nat) (tbl2 : Table),
      buildEsFieldsFuel g fuel s tbl jh pfx depth = some tbl2 → Paired tbl tbl2 := by
  intro fuel
  induction fuel with
  | zero =>
    intro tbl jh pfx depth tbl2 h
    simp only [buildEsFieldsFuel, Option.some.injEq] at h
    subst h
    exact paired_refl _
  | succ n ih =>
    intro tbl jh pfx depth tbl2 h
    simp only [buildEsFieldsFuel] at h
    exact forKeys_paired _
      (fun t k t2 => buildEsFieldsBody_paired g _ (fun t j p d t3 => ih t j p d t3) jh pfx depth
        t k t2) _ _ _ h

/-- A call of `buildEsFields` that returns has called `AddValues` as often under each
name as `AddField`. -/
theorem buildEsFields_paired (g : Accessors) (s : Schema) (tbl : Table) (jh : JsonHelper)
    (pfx : String) (depth : Nat) (tbl2 : Table)
    (h : buildEsFields g s tbl jh pfx depth = some tbl2) : Paired tbl tbl2 :=
  buildEsFieldsFuel_paired g s _ tbl jh pfx depth tbl2 h

theorem pairedInOrder_refl (t : Table) : PairedInOrder t t :=
  ⟨[], by simp, rfl⟩

theorem pairedInOrder_trans {t₁ t₂ t₃ : Table} (h₁ : PairedInOrder t₁ t₂)
    (h₂ : PairedInOrder t₂ t₃) : PairedInOrder t₁ t₃ := by
  obtain ⟨cs₁, hc₁, hp₁⟩ := h₁
  obtain ⟨cs₂, hc₂, hp₂⟩ := h₂
  refine ⟨cs₁ ++ cs₂, ?_, ?_⟩
  · rw [hc₂, hc₁, List.append_assoc]
  · rw [rowNamesOf_append, fieldNamesOf_append, hp₁, hp₂]

theorem pairedInOrder_add (t : Table) (row : List DriverValue) (fld : Field)
    (h : rowName row = fld.Name) : PairedInOrder t ((t.AddValues row).AddField fld) :=
  ⟨[.AddValues row, .AddField fld], by simp [Table.AddField, Table.AddValues],
    by simp [rowNamesOf, fieldNamesOf, h]⟩

/-- The turn of the loop for a property that has no properties of its own calls
`AddValues` and `AddField` together. -/
theorem buildEsFieldsBody_inOrder (g : Accessors)
    (self : Table → JsonHelper → String → Nat → Option Table)
    (jh : JsonHelper) (pfx : String) (depth : Nat) (tbl : Table) (field : String)
    (hflat : ∀ h props : JsonHelper, g.Helper jh field = some h →
      g.Helper h "properties" = some props → props.length = 0)
    (tbl2 : Table) (h : buildEsFieldsBody g self jh pfx depth tbl field = some tbl2) :
    PairedInOrder tbl tbl2 := by
  unfold buildEsFieldsBody at h
  split at h
  · simp at h
  · next hh hd =>
    split_ifs at h with hlen
    · simp only [] at h
      split at h
      · simp at h
      · next esType ht =>
        split_ifs at h
        all_goals first
          | (simp only [Option.some.injEq] at h
             subst h
             exact pairedInOrder_add _ _ _ rfl)
          | (split at h
             · simp at h
             · next props hp =>
               have hp0 : ¬ props.length > 0 := by
                 have := hflat hh props hd hp
                 omega
               simp only [hp0, if_false, Option.some.injEq] at h
               subst h
               exact pairedInOrder_add _ _ _ rfl)
    · simp only [Option.some.injEq] at h
      subst h
      exact pairedInOrder_refl _

theorem forKeys_inOrder (body : Table → String → Option Table) (ks : List String)
    (hbody : ∀ t, ∀ k ∈ ks, ∀ t2, body t k = some t2 → PairedInOrder t t2) :
    ∀ (tbl tbl2 : Table), forKeys body ks tbl = some tbl2 → PairedInOrder tbl tbl2 := by
  induction ks with
  | nil =>
    intro tbl tbl2 h
    simp only [forKeys, Option.some.injEq] at h
    subst h
    exact pairedInOrder_refl _
  | cons k rest ih =>
    intro tbl tbl2 h
    simp only [forKeys] at h
    split at h
    · simp at h
    · next t ht =>
      exact pairedInOrder_trans (hbody _ k (List.mem_cons_self _ _) _ ht)
        (ih (fun t k2 hk t2 => hbody t k2 (List.mem_cons_of_mem _ hk) t2) _ _ h)

/-- On a mapping without properties inside properties, a call of `buildEsFields` that
returns has called `AddValues` and `AddField` under the same names in the same order. -/
theorem buildEsFields_inOrder (g : Accessors) (s : Schema) (tbl : Table) (jh : JsonHelper)
    (pfx : String) (depth : Nat) (hflat : Flat g jh) (tbl2 : Table)
    (h : buildEsFields g s tbl jh pfx depth = some tbl2) : PairedInOrder tbl tbl2 :=
  forKeys_inOrder _ _
    (fun t k hk t2 => buildEsFieldsBody_inOrder g _ jh pfx depth t k (hflat k hk) t2) tbl tbl2 h

/-- After the turn of a property the table has a describe row and a call of `AddField`
under its name. -/
theorem turn_names {name : String} {t₁ t₂ : Table} (h : Turn name t₁ t₂) :
    (∃ row ∈ t₂.DescribeValues, rowName row = name)
      ∧ (∃ f ∈ t₂.AddedFields, f.Name = name) := by
  obtain ⟨row, fld, cs, hc, hrow, hfld, _⟩ := h
  refine ⟨⟨row, ?_, hrow⟩, ⟨fld, ?_, hfld⟩⟩
  · simp [Table.DescribeValues, hc, List.filterMap_append]
  · simp [Table.AddedFields, hc, List.filterMap_append]

/-- The turn of a property adds a describe row of its name to those the table has. -/
theorem turn_count {name : String} {t₁ t₂ : Table} (h : Turn name t₁ t₂) :
    (rowNames t₁).count name + 1 ≤ (rowNames t₂).count name := by
  obtain ⟨row, fld, cs, hc, hrow, hfld, _⟩ := h
  rw [rowNames_eq, rowNames_eq, hc, rowNamesOf_append, List.count_append]
  have : rowNamesOf (.AddValues row :: (cs ++ [.AddField fld])) = name :: rowNamesOf cs := by
    simp [rowNamesOf, List.filterMap_append, hrow]
  rw [this, List.count_cons_self]
  omega

theorem extends_count {t₁ t₂ : Table} (h : Extends t₁ t₂) (name : String) :
    (rowNames t₁).count name ≤ (rowNames t₂).count name := by
  obtain ⟨_, cs, hc⟩ := h
  rw [rowNames_eq, rowNames_eq, ← hc, rowNamesOf_append, List.count_append]
  omega

/-! ## The names of the calls start with the prefix -/

theorem under_refl (p : String) (t : Table) : Under p t t :=
  ⟨[], by simp, by simp [rowNamesOf], by simp [fieldNamesOf]⟩

theorem under_trans {p : String} {t₁ t₂ t₃ : Table} (h₁ : Under p t₁ t₂) (h₂ : Under p t₂ t₃) :
    Under p t₁ t₃ := by
  obtain ⟨cs₁, hc₁, hr₁, hf₁⟩ := h₁
  obtain ⟨cs₂, hc₂, hr₂, hf₂⟩ := h₂
  refine ⟨cs₁ ++ cs₂, ?_, ?_, ?_⟩
  · rw [hc₂, hc₁, List.append_assoc]
  · intro n hn
    rw [rowNamesOf_append, List.mem_append] at hn
    exact hn.elim (hr₁ n) (hr₂ n)
  · intro n hn
    rw [fieldNamesOf_append, List.mem_append] at hn
    exact hn.elim (hf₁ n) (hf₂ n)

theorem under_longer {p q : String} {t₁ t₂ : Table} (h : Under (p ++ q) t₁ t₂) :
    Under p t₁ t₂ := by
  obtain ⟨cs, hc, hr, hf⟩ := h
  have hpq : p.data <+: (p ++ q).data := by
    rw [String.data_append]
    exact List.prefix_append _ _
  exact ⟨cs, hc, fun n hn => hpq.trans (hr n hn), fun n hn => hpq.trans (hf n hn)⟩

theorem under_addValues (p : String) (t : Table) (row : List DriverValue)
    (hrow : p.data <+: (rowName row).data) : Under p t (t.AddValues row) :=
  ⟨[.AddValues row], rfl, by simpa [rowNamesOf] using hrow, by simp [fieldNamesOf]⟩

theorem under_addField (p : String) (t : Table) (fld : Field)
    (hfld : p.data <+: fld.Name.data) : Under p t (t.AddField fld) :=
  ⟨[.AddField fld], rfl, by simp [rowNamesOf], by simpa [fieldNamesOf] using hfld⟩

theorem under_of_ite {c : Prop} [Decidable c] {o : Option Table} {p : String} {t mid : Table}
    (ho : ∀ t2, o = some t2 → Under p t t2) (h : (if c then o else some t) = some mid) :
    Under p t mid := by
  split_ifs at h
  · exact ho _ h
  · simp only [Option.some.injEq] at h
    subst h
    exact under_refl _ _

theorem data_append_left (p q : String) : p.data <+: (p ++ q).data := by
  rw [String.data_append]
  exact List.prefix_append _ _

theorem parts_add {name : String} {t : Table} {row : List DriverValue} {fld : Field}
    (hrow : rowName row = name) (hfld : fld.Name = name) :
    ∃ (row2 : List DriverValue) (fld2 : Field) (mid2 : Table),
      rowName row2 = name ∧ fld2.Name = name
        ∧ Under (name ++ ".") (t.AddValues row2) mid2
        ∧ (t.AddValues row).AddField fld = mid2.AddField fld2 :=
  ⟨row, fld, t.AddValues row, hrow, hfld, under_refl _ _, rfl⟩

theorem parts_around {name : String} {t mid : Table} {row : List DriverValue} {fld : Field}
    (hmid : Under (name ++ ".") (t.AddValues row) mid) (hrow : rowName row = name)
    (hfld : fld.Name = name) :
    ∃ (row2 : List DriverValue) (fld2 : Field) (mid2 : Table),
      rowName row2 = name ∧ fld2.Name = name
        ∧ Under (name ++ ".") (t.AddValues row2) mid2
        ∧ mid.AddField fld = mid2.AddField fld2 :=
  ⟨row, fld, mid, hrow, hfld, hmid, rfl⟩

/-- The turn of the loop for a property with a definition, in its parts: the call of
`AddValues` under the name `pfx ++ field`, then calls under names that start with
`pfx ++ field ++ "."`, then the call of `AddField` under the name `pfx ++ field`. -/
theorem buildEsFieldsBody_parts (g : Accessors)
    (self : Table → JsonHelper → String → Nat → Option Table)
    (hself : ∀ t j p d t2, self t j p d = some t2 → Under p t t2)
    (jh : JsonHelper) (pfx : String) (depth : Nat) (tbl : Table) (field : String)
    (hh : JsonHelper) (hd : g.Helper jh field = some hh) (hlen : hh.length > 0)
    (tbl2 : Table) (h : buildEsFieldsBody g self jh pfx depth tbl field = some tbl2) :
    ∃ (row : List DriverValue) (fld : Field) (mid : Table),
      rowName row = pfx ++ field ∧ fld.Name = pfx ++ field
        ∧ Under (pfx ++ field ++ ".") (tbl.AddValues row) mid ∧ tbl2 = mid.AddField fld := by
  unfold buildEsFieldsBody at h
  simp only [hd, hlen, if_true] at h
  split at h
  · simp at h
  · next esType ht =>
    split_ifs at h
    all_goals first
      | (simp only [Option.some.injEq] at h
         subst h
         exact parts_add rfl rfl)
      | (split at h
         · simp at h
         · next props hp =>
           split at h
           · simp at h
           · next mid hmid =>
             simp only [Option.some.injEq] at h
             subst h
             exact parts_around (under_of_ite (fun t2 => hself _ _ _ _ t2) hmid) rfl rfl)

theorem buildEsFieldsBody_under (g : Accessors)
    (self : Table → JsonHelper → String → Nat → Option Table)
    (hself : ∀ t j p d t2, self t j p d = some t2 → Under p t t2)
    (jh : JsonHelper) (pfx : String) (depth : Nat) (tbl : Table) (field : String)
    (tbl2 : Table) (h : buildEsFieldsBody g self jh pfx depth tbl field = some tbl2) :
    Under pfx tbl tbl2 := by
  cases hd : g.Helper jh field with
  | none => simp [buildEsFieldsBody, hd] at h
  | some hh =>
    by_cases hlen : hh.length > 0
    · obtain ⟨row, fld, mid, hrow, hfld, hmid, rfl⟩ :=
        buildEsFieldsBody_parts g self hself jh pfx depth tbl field hh hd hlen tbl2 h
      have h1 : Under pfx tbl (tbl.AddValues row) :=
        under_addValues pfx tbl row (by rw [hrow]; exact data_append_left _ _)
      have h2 : Under pfx (tbl.AddValues row) mid := by
        rw [String.append_assoc] at hmid
        exact under_longer hmid
      have h3 : Under pfx mid (mid.AddField fld) :=
        under_addField pfx mid fld (by rw [hfld]; exact data_append_left _ _)
      exact under_trans h1 (under_trans h2 h3)
    · rw [buildEsFieldsBody_empty g self jh pfx depth tbl field hh hd (by omega)] at h
      simp only [Option.some.injEq] at h
      subst h
      exact under_refl _ _

theorem forKeys_under (p : String) (body : Table → String → Option Table)
    (hbody : ∀ t k t2, body t k = some t2 → Under p t t2) (ks : List String) :
    ∀ (tbl tbl2 : Table), forKeys body ks tbl = some tbl2 → Under p tbl tbl2 := by
  induction ks with
  | nil =>
    intro tbl tbl2 h
    simp only [forKeys, Option.some.injEq] at h
    subst h
    exact under_refl _ _
  | cons k rest ih =>
    intro tbl tbl2 h
    simp only [forKeys] at h
    split at h
    · simp at h
    · next t ht => exact under_trans (hbody _ _ _ ht) (ih _ _ h)

theorem buildEsFieldsFuel_under (g : Accessors) (s : Schema) :
    ∀ (fuel : Nat) (tbl : Table) (jh : JsonHelper) (pfx : String) (depth : Nat) (tbl2 : Table),
      buildEsFieldsFuel g fuel s tbl jh pfx depth = some tbl2 → Under pfx tbl tbl2 := by
  intro fuel
  induction fuel with
  | zero =>
    intro tbl jh pfx depth tbl2 h
    simp only [buildEsFieldsFuel, Option.some.injEq] at h
    subst h
    exact under_refl _ _
  | succ n ih =>
    intro tbl jh pfx depth tbl2 h
    simp only [buildEsFieldsFuel] at h
    exact forKeys_under pfx _
      (fun t k t2 => buildEsFieldsBody_under g _ (fun t j p d t3 => ih t j p d t3) jh pfx depth
        t k t2) _ _ _ h

/-- A call of `buildEsFields` that returns has made its calls under names that start with
its prefix. -/
theorem buildEsFields_under (g : Accessors) (s : Schema) (tbl : Table) (jh : JsonHelper)
    (pfx : String) (depth : Nat) (tbl2 : Table)
    (h : buildEsFields g s tbl jh pfx depth = some tbl2) : Under pfx tbl tbl2 :=
  buildEsFieldsFuel_under g s _ tbl jh pfx depth tbl2 h

/-- A name is not among names that start with the name and a dot. -/
theorem count_under (name : String) (l : List String)
    (h : ∀ n ∈ l, (name ++ ".").data <+: n.data) : l.count name = 0 := by
  rw [List.count_eq_zero]
  intro hmem
  have hlen := (h name hmem).length_le
  rw [String.data_append] at hlen
  simp at hlen

/-- The turn of the loop for a property with a definition makes exactly one call of
`AddValues` and exactly one call of `AddField` under the name `pfx ++ field`. -/
theorem buildEsFieldsBody_once (g : Accessors)
    (self : Table → JsonHelper → String → Nat → Option Table)
    (hself : ∀ t j p d t2, self t j p d = some t2 → Under p t t2)
    (jh : JsonHelper) (pfx : String) (depth : Nat) (tbl : Table) (field : String)
    (hh : JsonHelper) (hd : g.Helper jh field = some hh) (hlen : hh.length > 0)
    (tbl2 : Table) (h : buildEsFieldsBody g self jh pfx depth tbl field = some tbl2) :
    (rowNames tbl2).count (pfx ++ field) = (rowNames tbl).count (pfx ++ field) + 1
      ∧ (addedFieldNames tbl2).count (pfx ++ field)
          = (addedFieldNames tbl).count (pfx ++ field) + 1 := by
  obtain ⟨row, fld, mid, hrow, hfld, ⟨cs, hc, hr, hf⟩, rfl⟩ :=
    buildEsFieldsBody_parts g self hself jh pfx depth tbl field hh hd hlen tbl2 h
  have hcalls : (mid.AddField fld).Calls
      = tbl.Calls ++ ([.AddValues row] ++ cs ++ [.AddField fld]) := by
    simp [Table.AddField, hc, Table.AddValues]
  have h1 : rowNamesOf ([.AddValues row] ++ cs ++ [.AddField fld])
      = (pfx ++ field) :: rowNamesOf cs := by
    simp [rowNamesOf, List.filterMap_append, hrow]
  have h2 : fieldNamesOf ([.AddValues row] ++ cs ++ [.AddField fld])
      = fieldNamesOf cs ++ [pfx ++ field] := by
    simp [fieldNamesOf, List.filterMap_append, hfld]
  refine ⟨?_, ?_⟩
  · rw [rowNames_eq, rowNames_eq, hcalls, rowNamesOf_append, List.count_append, h1,
      List.count_cons_self, count_under _ _ hr]
  · rw [addedFieldNames_eq, addedFieldNames_eq, hcalls, fieldNamesOf_append, List.count_append,
      h2, List.count_append, List.count_singleton_self, count_under _ _ hf]

/-! ## The type table of `buildEsFields` -/

/-- Every property of `jh` with a definition has a describe row and a call of `AddField`
under the name `pfx ++ field` in the table of a call of `buildEsFields` that returns. -/
theorem buildEsFields_adds_name (g : Accessors) (s : Schema) (tbl : Table) (jh : JsonHelper)
    (pfx : String) (depth : Nat) (field : String) (h : JsonHelper) (tbl2 : Table)
    (hkey : field ∈ jh.Keys) (hdef : g.Helper jh field = some h) (hlen : h.length > 0)
    (hret : buildEsFields g s tbl jh pfx depth = some tbl2) :
    (∃ row ∈ tbl2.DescribeValues, rowName row = pfx ++ field)
      ∧ (∃ f ∈ tbl2.AddedFields, f.Name = pfx ++ field) := by
  obtain ⟨t, t2, _, hb, he⟩ := buildEsFields_turn g s tbl jh pfx depth tbl2 field hkey hret
  obtain ⟨⟨row, hr, hrn⟩, ⟨f, hf, hfn⟩⟩ := turn_names
    (buildEsFieldsBody_turn g _ (fun t j p d t3 => buildEsFieldsFuel_paired g s _ t j p d t3)
      jh pfx depth t field h hdef hlen t2 hb)
  exact ⟨⟨row, he.mem_rows hr, hrn⟩, ⟨f, he.mem_added hf, hfn⟩⟩

/-- The turn of the loop for a property with a definition and a type tag whose case in
the switch makes no nested call: one call of `AddValues` and one call of `AddField`. -/
theorem buildEsFieldsBody_leaf (g : Accessors)
    (self : Table → JsonHelper → String → Nat → Option Table)
    (jh : JsonHelper) (pfx : String) (depth : Nat) (t : Table) (field tag : String)
    (ty : ValueType) (size : Nat) (h : JsonHelper)
    (hdef : g.Helper jh field = some h) (hlen : h.length > 0)
    (htag : g.StringOf h "type" = some tag)
    (htable : (tag = "boolean" ∧ ty = .BoolType ∧ size = 1)
      ∨ (tag = "string" ∧ ty = .StringType ∧ size = 512)
      ∨ (tag = "date" ∧ ty = .TimeType ∧ size = 4)
      ∨ ((tag = "int" ∨ tag = "long" ∨ tag = "integer") ∧ ty = .IntType ∧ size = 8)
      ∨ (tag = "nested" ∧ ty = .StringType ∧ size = 2000)) :
    buildEsFieldsBody g self jh pfx depth t field
      = some ((t.AddValues [.str (pfx ++ field), .str tag, .str "YES", .str "", .null,
          .json h]).AddField ⟨pfx ++ field, ty, size, .json h⟩) := by
  rcases htable with ⟨h1, h2, h3⟩ | ⟨h1, h2, h3⟩ | ⟨h1, h2, h3⟩ | ⟨h1 | h1 | h1, h2, h3⟩
    | ⟨h1, h2, h3⟩ <;>
    subst h1 h2 h3 <;>
    simp [buildEsFieldsBody, hdef, hlen, htag, NewField]

/-- The two calls of such a turn are among the calls of the table when `buildEsFields`
returns. -/
theorem buildEsFields_leaf_calls (g : Accessors) (s : Schema) (tbl : Table) (jh : JsonHelper)
    (pfx : String) (depth : Nat) (field tag : String) (ty : ValueType) (size : Nat)
    (h : JsonHelper) (hkey : field ∈ jh.Keys)
    (hdef : g.Helper jh field = some h) (hlen : h.length > 0)
    (htag : g.StringOf h "type" = some tag)
    (htable : (tag = "boolean" ∧ ty = .BoolType ∧ size = 1)
      ∨ (tag = "string" ∧ ty = .StringType ∧ size = 512)
      ∨ (tag = "date" ∧ ty = .TimeType ∧ size = 4)
      ∨ ((tag = "int" ∨ tag = "long" ∨ tag = "integer") ∧ ty = .IntType ∧ size = 8)
      ∨ (tag = "nested" ∧ ty = .StringType ∧ size = 2000))
    (tbl2 : Table) (hret : buildEsFields g s tbl jh pfx depth = some tbl2) :
    [.str (pfx ++ field), .str tag, .str "YES", .str "", .null, .json h] ∈ tbl2.DescribeValues
      ∧ (⟨pfx ++ field, ty, size, .json h⟩ : Field) ∈ tbl2.AddedFields := by
  obtain ⟨t, t2, _, hb, he⟩ := buildEsFields_turn g s tbl jh pfx depth tbl2 field hkey hret
  rw [buildEsFieldsBody_leaf g _ jh pfx depth t field tag ty size h hdef hlen htag htable] at hb
  simp only [Option.some.injEq] at hb
  subst hb
  exact ⟨he.mem_rows (by simp [Table.DescribeValues, Table.AddField, Table.AddValues,
      List.filterMap_append]),
    he.mem_added (by simp [Table.AddedFields, Table.AddField, Table.AddValues,
      List.filterMap_append])⟩

/-- C1: for every mapping node `jh` and every prefix, a property `field` of `jh` whose
definition `h`, as `jh.Helper(field)` answers it, is not empty and whose `type` tag, as
`h.String("type")` answers it, is a scalar tag makes its turn of the loop call `AddValues`
once and `AddField` once and nothing else, whatever the table holds and whatever is
called for nested objects: the field is named `pfx ++ field` and has the logical type and
size of the table (boolean: bool, 1; string: string, 512; date: time, 4; int, long,
integer: int, 8), the describe row carries the same name and the tag itself; and when
`buildEsFields` returns, the row is among the describe rows of the table and the field
among the fields passed to `AddField`. -/
theorem buildEsFields_scalar (g : Accessors) (s : Schema) (tbl : Table) (jh : JsonHelper)
    (pfx : String) (depth : Nat) (field tag : String) (ty : ValueType) (size : Nat)
    (h : JsonHelper)
    (hkey : field ∈ jh.Keys)
    (hdef : g.Helper jh field = some h) (hlen : h.length > 0)
    (htag : g.StringOf h "type" = some tag)
    (htable : (tag = "boolean" ∧ ty = .BoolType ∧ size = 1)
      ∨ (tag = "string" ∧ ty = .StringType ∧ size = 512)
      ∨ (tag = "date" ∧ ty = .TimeType ∧ size = 4)
      ∨ ((tag = "int" ∨ tag = "long" ∨ tag = "integer") ∧ ty = .IntType ∧ size = 8)) :
    (∀ (self : Table → JsonHelper → String → Nat → Option Table) (t : Table),
      buildEsFieldsBody g self jh pfx depth t field
        = some { Name := t.Name,
                 Calls := t.Calls ++
                   [.AddValues [.str (pfx ++ field), .str tag, .str "YES", .str "", .null,
                      .json h],
                    .AddField ⟨pfx ++ field, ty, size, .json h⟩] })
      ∧ (∀ tbl2 : Table, buildEsFields g s tbl jh pfx depth = some tbl2 →
          [.str (pfx ++ field), .str tag, .str "YES", .str "", .null, .json h]
              ∈ tbl2.DescribeValues
            ∧ (⟨pfx ++ field, ty, size, .json h⟩ : Field) ∈ tbl2.AddedFields) := by
  have htable2 : (tag = "boolean" ∧ ty = .BoolType ∧ size = 1)
      ∨ (tag = "string" ∧ ty = .StringType ∧ size = 512)
      ∨ (tag = "date" ∧ ty = .TimeType ∧ size = 4)
      ∨ ((tag = "int" ∨ tag = "long" ∨ tag = "integer") ∧ ty = .IntType ∧ size = 8)
      ∨ (tag = "nested" ∧ ty = .StringType ∧ size = 2000) := by
    rcases htable with h1 | h1 | h1 | h1
    · exact Or.inl h1
    · exact Or.inr (Or.inl h1)
    · exact Or.inr (Or.inr (Or.inl h1))
    · exact Or.inr (Or.inr (Or.inr (Or.inl h1)))
  refine ⟨fun self t => ?_, fun tbl2 hret => ?_⟩
  · rw [buildEsFieldsBody_leaf g self jh pfx depth t field tag ty size h hdef hlen htag htable2]
    simp [Table.AddField, Table.AddValues]
  · exact buildEsFields_leaf_calls g s tbl jh pfx depth field tag ty size h hkey hdef hlen htag
      htable2 tbl2 hret

/-- C1 at the mapping with the one property `count` of type `long`, under the prefix
`stats.`, with the accessors of the examples: the hypotheses hold, the call returns, and
the field `stats.count`, an int of size 8, is among the fields passed to `AddField`. -/
theorem buildEsFields_scalar_witness :
    "count" ∈ JsonHelper.Keys [("count", typed "long")]
      ∧ plainAccessors.Helper [("count", typed "long")] "count" = some [("type", .str "long")]
      ∧ (List.length [("type", Json.str "long")] > 0)
      ∧ plainAccessors.StringOf [("type", .str "long")] "type" = some "long"
      ∧ (buildEsFields plainAccessors emptySchema (NewTable "t" emptySchema)
            [("count", typed "long")] "stats." 1).isSome = true
      ∧ ∀ tbl2 : Table,
          buildEsFields plainAccessors emptySchema (NewTable "t" emptySchema)
              [("count", typed "long")] "stats." 1 = some tbl2 →
          (⟨"stats." ++ "count", .IntType, 8, .json [("type", .str "long")]⟩ : Field)
            ∈ tbl2.AddedFields :=
  ⟨by decide, rfl, by decide, rfl, by decide,
    fun tbl2 hret =>
      ((buildEsFields_scalar plainAccessors emptySchema (NewTable "t" emptySchema)
        [("count", typed "long")] "stats." 1 "count" "long" .IntType 8 [("type", .str "long")]
        (by decide) rfl (by decide) rfl (by decide)).2 tbl2 hret).2⟩

/-! ## Objects and nested properties -/

/-- The turn of the loop for a property with a definition and none of the recognised
tags: the describe row of an object, the call on its properties when these are not
empty, the string field. -/
theorem buildEsFieldsBody_object (g : Accessors)
    (self : Table → JsonHelper → String → Nat → Option Table)
    (jh : JsonHelper) (pfx : String) (depth : Nat) (t : Table) (field tag : String)
    (h props : JsonHelper)
    (hdef : g.Helper jh field = some h) (hlen : h.length > 0)
    (htag : g.StringOf h "type" = some tag) (hnot : tag ∉ recognisedTags)
    (hprops : g.Helper h "properties" = some props) :
    buildEsFieldsBody g self jh pfx depth t field
      = (if props.length > 0 then
          self (t.AddValues [.str (pfx ++ field), .str "object", .str "YES", .str "", .null,
            .str objectDescription]) props (pfx ++ field ++ ".") (depth + 1)
        else
          some (t.AddValues [.str (pfx ++ field), .str "object", .str "YES", .str "", .null,
            .str objectDescription])).map
          (fun t2 => t2.AddField ⟨pfx ++ field, .StringType, 2000, .str objectDescription⟩) := by
  simp only [recognisedTags, List.mem_cons, List.mem_singleton, not_or, List.not_mem_nil,
    not_false_eq_true, and_true] at hnot
  obtain ⟨h1, h2, h3, h4, h5, h6, h7⟩ := hnot
  simp only [buildEsFieldsBody, hdef, hlen, if_true, htag, h1, h2, h3, h4, h5, h6, h7, if_false,
    or_self, hprops, NewField]
  cases (if props.length > 0 then
      self (t.AddValues [.str (pfx ++ field), .str "object", .str "YES", .str "", .null,
        .str objectDescription]) props (pfx ++ field ++ ".") (depth + 1)
    else
      some (t.AddValues [.str (pfx ++ field), .str "object", .str "YES", .str "", .null,
        .str objectDescription])) <;> rfl

/-- What `objectProperties` answers is what the default case of the switch calls
`buildEsFields` on. -/
theorem objectProperties_some {g : Accessors} {jh props : JsonHelper} {field : String}
    (h : objectProperties g jh field = some props) :
    ∃ (hh : JsonHelper) (tag : String),
      g.Helper jh field = some hh ∧ hh.length > 0 ∧ g.StringOf hh "type" = some tag
        ∧ tag ∉ recognisedTags ∧ g.Helper hh "properties" = some props ∧ props.length > 0 := by
  unfold objectProperties at h
  split at h
  · simp at h
  · next hh hd =>
    split_ifs at h with hlen
    split at h
    · simp at h
    · next tag ht =>
      split_ifs at h with hrec
      split at h
      · simp at h
      · next p hp =>
        split_ifs at h with hpl
        simp only [Option.some.injEq] at h
        subst h
        exact ⟨hh, tag, hd, hlen, ht, hrec, hp, hpl⟩

theorem objectProperties_of {g : Accessors} {jh h props : JsonHelper} {field tag : String}
    (hdef : g.Helper jh field = some h) (hlen : h.length > 0)
    (htag : g.StringOf h "type" = some tag) (hnot : tag ∉ recognisedTags)
    (hprops : g.Helper h "properties" = some props) (hpl : props.length > 0) :
    objectProperties g jh field = some props := by
  simp [objectProperties, hdef, hlen, htag, hnot, hprops, hpl]

/-- A call of `buildEsFields` that returns has called `buildEsFields` on every mapping
that is reached through a path of object properties, with the keys of the path added to
the prefix, each with a dot, and the depth raised by one for each key. -/
theorem buildEsFields_descend (g : Accessors) (hg : g.Inside) (s : Schema) :
    ∀ (ks : List String) (jh jh2 : JsonHelper) (tbl : Table) (pfx : String) (depth : Nat)
      (tbl2 : Table),
      descend g jh ks = some jh2 → buildEsFields g s tbl jh pfx depth = some tbl2 →
      ∃ t t2, Extends tbl t
        ∧ buildEsFields g s t jh2 (pathPrefix pfx ks) (depth + ks.length) = some t2
        ∧ Extends t2 tbl2 := by
  intro ks
  induction ks with
  | nil =>
    intro jh jh2 tbl pfx depth tbl2 hd hret
    simp only [descend, Option.some.injEq] at hd
    subst hd
    exact ⟨tbl, tbl2, Extends.refl _, hret, Extends.refl _⟩
  | cons k rest ih =>
    intro jh jh2 tbl pfx depth tbl2 hd hret
    simp only [descend] at hd
    split_ifs at hd with hkey
    split at hd
    · simp at hd
    · next props hop =>
      obtain ⟨hh, tag, hdef, hlen, htag, hnot, hprops, hpl⟩ := objectProperties_some hop
      rw [buildEsFields_eq g hg] at hret
      obtain ⟨t, t1, he1, hb, he2⟩ := forKeys_turn _
        (fun t k t2 => buildEsFieldsBody_extends g _
          (fun t j p d t3 => buildEsFields_extends g s t j p d t3) jh pfx depth t k t2)
        jh.Keys k hkey tbl tbl2 hret
      rw [buildEsFieldsBody_object g _ jh pfx depth t k tag hh props hdef hlen htag hnot hprops,
        if_pos hpl] at hb
      cases hmid : buildEsFields g s
          (t.AddValues [.str (pfx ++ k), .str "object", .str "YES", .str "", .null,
            .str objectDescription]) props (pfx ++ k ++ ".") (depth + 1) with
      | none => rw [hmid] at hb; simp at hb
      | some mid =>
        rw [hmid] at hb
        simp only [Option.map_some', Option.some.injEq] at hb
        subst hb
        obtain ⟨t3, t4, he3, hcall, he4⟩ := ih props jh2 _ (pfx ++ k ++ ".") (depth + 1) mid hd hmid
        refine ⟨t3, t4, (he1.trans (Extends.addValues _ _)).trans he3, ?_,
          (he4.trans (Extends.addField _ _)).trans he2⟩
        have hlen2 : depth + (k :: rest).length = depth + 1 + rest.length := by
          simp only [List.length_cons]; omega
        rw [hlen2]
        exact hcall

/-- C2: for every mapping `jh` and prefix, a property `field` with a definition whose
`type` tag is none of the recognised tags (an object) makes its turn of the loop call
`AddValues` with the describe row of an object, then, when its `properties` are not empty,
the function of the nested calls on them with the prefix `pfx ++ field ++ "."` and the
depth `depth + 1`, and last `AddField` with the string field `pfx ++ field`; the function
of the nested calls is `buildEsFields` itself. When `buildEsFields` returns, that row and
field are in the table, and for every mapping `jh2` that is reached from the properties
through a path `ks` of objects, at any depth, `buildEsFields` was called on `jh2` with the
keys of the path added to the prefix and the depth raised by one for each level, and
every property `child` of `jh2` with a definition has a describe row and a field named by
the whole path. -/
theorem buildEsFields_object (g : Accessors) (hg : g.Inside) (s : Schema) (tbl : Table)
    (jh : JsonHelper) (pfx : String) (depth : Nat) (field tag : String) (h props : JsonHelper)
    (hkey : field ∈ jh.Keys)
    (hdef : g.Helper jh field = some h) (hlen : h.length > 0)
    (htag : g.StringOf h "type" = some tag) (hnot : tag ∉ recognisedTags)
    (hprops : g.Helper h "properties" = some props) :
    (∀ (self : Table → JsonHelper → String → Nat → Option Table) (t : Table),
      buildEsFieldsBody g self jh pfx depth t field
        = (if props.length > 0 then
            self (t.AddValues [.str (pfx ++ field), .str "object", .str "YES", .str "", .null,
              .str objectDescription]) props (pfx ++ field ++ ".") (depth + 1)
          else
            some (t.AddValues [.str (pfx ++ field), .str "object", .str "YES", .str "", .null,
              .str objectDescription])).map
            (fun t2 => t2.AddField ⟨pfx ++ field, .StringType, 2000, .str objectDescription⟩))
      ∧ (∀ (t : Table) (j : JsonHelper) (p : String) (d : Nat),
          buildEsFields g s t j p d
            = forKeys (buildEsFieldsBody g (buildEsFields g s) j p d) j.Keys t)
      ∧ (∀ tbl2 : Table, buildEsFields g s tbl jh pfx depth = some tbl2 →
          [.str (pfx ++ field), .str "object", .str "YES", .str "", .null,
              .str objectDescription] ∈ tbl2.DescribeValues
            ∧ (⟨pfx ++ field, .StringType, 2000, .str objectDescription⟩ : Field)
                ∈ tbl2.AddedFields
            ∧ (props.length > 0 →
                ∀ (ks : List String) (jh2 : JsonHelper), descend g props ks = some jh2 →
                  (∃ t t2, Extends tbl t
                      ∧ buildEsFields g s t jh2 (pathPrefix (pfx ++ field ++ ".") ks)
                          (depth + 1 + ks.length) = some t2
                      ∧ Extends t2 tbl2)
                    ∧ ∀ (child : String) (hc : JsonHelper), child ∈ jh2.Keys →
                        g.Helper jh2 child = some hc → hc.length > 0 →
                        (∃ row ∈ tbl2.DescribeValues,
                            rowName row = pathPrefix (pfx ++ field ++ ".") ks ++ child)
                          ∧ (∃ f ∈ tbl2.AddedFields,
                              f.Name = pathPrefix (pfx ++ field ++ ".") ks ++ child))) := by
  refine ⟨fun self t => buildEsFieldsBody_object g self jh pfx depth t field tag h props hdef
      hlen htag hnot hprops, fun t j p d => buildEsFields_eq g hg s t j p d, fun tbl2 hret => ?_⟩
  obtain ⟨t, t2, _, hb, he⟩ := buildEsFields_turn g s tbl jh pfx depth tbl2 field hkey hret
  rw [buildEsFieldsBody_object g _ jh pfx depth t field tag h props hdef hlen htag hnot
    hprops] at hb
  refine ⟨?_, ?_, ?_⟩
  · cases hmid : (if props.length > 0 then
        buildEsFieldsFuel g (heightMembers jh) s
          (t.AddValues [.str (pfx ++ field), .str "object", .str "YES", .str "", .null,
            .str objectDescription]) props (pfx ++ field ++ ".") (depth + 1)
      else
        some (t.AddValues [.str (pfx ++ field), .str "object", .str "YES", .str "", .null,
          .str objectDescription])) with
    | none => rw [hmid] at hb; simp at hb
    | some mid =>
      rw [hmid] at hb
      simp only [Option.map_some', Option.some.injEq] at hb
      subst hb
      have hm := extends_of_ite
        (fun t3 => buildEsFieldsFuel_extends g s _ _ _ _ _ t3) hmid
      exact he.mem_rows ((Extends.addField _ _).mem_rows (hm.mem_rows
        (by simp [Table.DescribeValues, Table.AddValues, List.filterMap_append])))
  · cases hmid : (if props.length > 0 then
        buildEsFieldsFuel g (heightMembers jh) s
          (t.AddValues [.str (pfx ++ field), .str "object", .str "YES", .str "", .null,
            .str objectDescription]) props (pfx ++ field ++ ".") (depth + 1)
      else
        some (t.AddValues [.str (pfx ++ field), .str "object", .str "YES", .str "", .null,
          .str objectDescription])) with
    | none => rw [hmid] at hb; simp at hb
    | some mid =>
      rw [hmid] at hb
      simp only [Option.map_some', Option.some.injEq] at hb
      subst hb
      exact he.mem_added
        (by simp [Table.AddedFields, Table.AddField, List.filterMap_append])
  · intro hpl ks jh2 hd
    have hfull : descend g jh (field :: ks) = some jh2 := by
      simp only [descend, hkey, if_true,
        objectProperties_of hdef hlen htag hnot hprops hpl]
      exact hd
    obtain ⟨t3, t4, he3, hcall, he4⟩ :=
      buildEsFields_descend g hg s (field :: ks) jh jh2 tbl pfx depth tbl2 hfull hret
    have hlen2 : depth + (field :: ks).length = depth + 1 + ks.length := by
      simp only [List.length_cons]; omega
    rw [hlen2] at hcall
    refine ⟨⟨t3, t4, he3, hcall, he4⟩, fun child hc hck hcd hcl => ?_⟩
    obtain ⟨⟨row, hr, hrn⟩, ⟨f, hf, hfn⟩⟩ :=
      buildEsFields_adds_name g s t3 jh2 _ _ child hc t4 hck hcd hcl hcall
    exact ⟨⟨row, he4.mem_rows hr, hrn⟩, ⟨f, he4.mem_added hf, hfn⟩⟩

/-- C2 at `chainMapping 2`, in which the object `a` holds the object `a` that holds the
string `a`, with the accessors of the examples: the hypotheses hold, the call returns,
and the string two levels down has a field named `a.a.a`. -/
theorem buildEsFields_object_witness :
    "a" ∈ (chainMapping 2).Keys
      ∧ plainAccessors.Helper (chainMapping 2) "a"
          = some [("properties", .obj (chainMapping 1))]
      ∧ plainAccessors.StringOf [("properties", .obj (chainMapping 1))] "type" = some ""
      ∧ "" ∉ recognisedTags
      ∧ plainAccessors.Helper [("properties", .obj (chainMapping 1))] "properties"
          = some (chainMapping 1)
      ∧ descend plainAccessors (chainMapping 1) ["a"] = some (chainMapping 0)
      ∧ (buildEsFields plainAccessors emptySchema (NewTable "t" emptySchema) (chainMapping 2)
            "" 0).isSome = true
      ∧ ∀ tbl2 : Table,
          buildEsFields plainAccessors emptySchema (NewTable "t" emptySchema) (chainMapping 2)
              "" 0 = some tbl2 →
          ∃ f ∈ tbl2.AddedFields, f.Name = pathPrefix ("" ++ "a" ++ ".") ["a"] ++ "a" :=
  ⟨by decide, rfl, rfl, by decide, rfl, rfl, by decide,
    fun tbl2 hret =>
      ((((buildEsFields_object plainAccessors plainAccessors_inside emptySchema
        (NewTable "t" emptySchema) (chainMapping 2) "" 0 "a" ""
        [("properties", .obj (chainMapping 1))] (chainMapping 1)
        (by decide) rfl (by decide) rfl (by decide) rfl).2.2 tbl2 hret).2.2 (by decide) ["a"]
        (chainMapping 0) rfl).2 "a" [("type", .str "string")] (by decide) rfl (by decide)).2⟩

/-- C3 as stated fails at `nestedMapping`: the property `n` has the tag `nested` and its
properties hold `b` with a definition, and yet the call makes two calls on the table, a
describe row `n` and a field `n`, and none for a field named `n.b`. -/
theorem buildEsFields_nested_not_expanded :
    plainAccessors.Helper nestedMapping "n"
        = some [("type", .str "nested"), ("properties", .obj [("b", typed "string")])]
      ∧ plainAccessors.StringOf
          [("type", .str "nested"), ("properties", .obj [("b", typed "string")])] "type"
        = some "nested"
      ∧ plainAccessors.Helper
          [("type", .str "nested"), ("properties", .obj [("b", typed "string")])] "properties"
        = some [("b", typed "string")]
      ∧ plainAccessors.Helper [("b", typed "string")] "b" = some [("type", .str "string")]
      ∧ (buildEsFields plainAccessors emptySchema (NewTable "t" emptySchema) nestedMapping ""
          0).map addedFieldNames = some ["n"]
      ∧ (buildEsFields plainAccessors emptySchema (NewTable "t" emptySchema) nestedMapping ""
          0).map rowNames = some ["n"]
      ∧ ("n" ++ "." ++ "b") ∉ ["n"] := by
  refine ⟨rfl, rfl, rfl, rfl, by decide, by decide, by decide⟩

/-- C3, amended: for every mapping `jh` and prefix, a property `field` with a definition
whose `type` tag is `nested` makes its turn of the loop call `AddValues` once and
`AddField` once and nothing else, whatever is called for nested objects: the field is the
string field `pfx ++ field` of size 2000 that carries the definition, the describe row
carries the same name and the tag `nested`, and no call is made for its properties. When
`buildEsFields` returns, the row and the field are in the table. -/
theorem buildEsFields_nested (g : Accessors) (s : Schema) (tbl : Table) (jh : JsonHelper)
    (pfx : String) (depth : Nat) (field : String) (h : JsonHelper)
    (hkey : field ∈ jh.Keys)
    (hdef : g.Helper jh field = some h) (hlen : h.length > 0)
    (htag : g.StringOf h "type" = some "nested") :
    (∀ (self : Table → JsonHelper → String → Nat → Option Table) (t : Table),
      buildEsFieldsBody g self jh pfx depth t field
        = some { Name := t.Name,
                 Calls := t.Calls ++
                   [.AddValues [.str (pfx ++ field), .str "nested", .str "YES", .str "", .null,
                      .json h],
                    .AddField ⟨pfx ++ field, .StringType, 2000, .json h⟩] })
      ∧ (∀ tbl2 : Table, buildEsFields g s tbl jh pfx depth = some tbl2 →
          [.str (pfx ++ field), .str "nested", .str "YES", .str "", .null, .json h]
              ∈ tbl2.DescribeValues
            ∧ (⟨pfx ++ field, .StringType, 2000, .json h⟩ : Field) ∈ tbl2.AddedFields) := by
  have htable : ("nested" = "boolean" ∧ ValueType.StringType = .BoolType ∧ 2000 = 1)
      ∨ ("nested" = "string" ∧ ValueType.StringType = .StringType ∧ 2000 = 512)
      ∨ ("nested" = "date" ∧ ValueType.StringType = .TimeType ∧ 2000 = 4)
      ∨ (("nested" = "int" ∨ "nested" = "long" ∨ "nested" = "integer")
          ∧ ValueType.StringType = .IntType ∧ 2000 = 8)
      ∨ ("nested" = "nested" ∧ ValueType.StringType = .StringType ∧ 2000 = 2000) :=
    Or.inr (Or.inr (Or.inr (Or.inr ⟨rfl, rfl, rfl⟩)))
  refine ⟨fun self t => ?_, fun tbl2 hret => ?_⟩
  · rw [buildEsFieldsBody_leaf g self jh pfx depth t field "nested" .StringType 2000 h hdef hlen
      htag htable]
    simp [Table.AddField, Table.AddValues]
  · exact buildEsFields_leaf_calls g s tbl jh pfx depth field "nested" .StringType 2000 h hkey
      hdef hlen htag htable tbl2 hret

/-- C3, amended, at `nestedMapping` with the accessors of the examples: the hypotheses
hold, and the turn for `n` makes the two calls on a new table. -/
theorem buildEsFields_nested_witness :
    "n" ∈ nestedMapping.Keys
      ∧ plainAccessors.Helper nestedMapping "n"
          = some [("type", .str "nested"), ("properties", .obj [("b", typed "string")])]
      ∧ plainAccessors.StringOf
          [("type", .str "nested"), ("properties", .obj [("b", typed "string")])] "type"
        = some "nested"
      ∧ buildEsFieldsBody plainAccessors (buildEsFields plainAccessors emptySchema)
          nestedMapping "" 0 (NewTable "t" emptySchema) "n"
        = some { Name := "t",
                 Calls := [] ++
                   [.AddValues [.str ("" ++ "n"), .str "nested", .str "YES", .str "", .null,
                      .json [("type", .str "nested"),
                        ("properties", .obj [("b", typed "string")])]],
                    .AddField ⟨"" ++ "n", .StringType, 2000,
                      .json [("type", .str "nested"),
                        ("properties", .obj [("b", typed "string")])]⟩] } :=
  ⟨by decide, rfl, rfl,
    (buildEsFields_nested plainAccessors emptySchema (NewTable "t" emptySchema) nestedMapping ""
      0 "n" [("type", .str "nested"), ("properties", .obj [("b", typed "string")])]
      (by decide) rfl (by decide) rfl).1 _ (NewTable "t" emptySchema)⟩

/-! ## Depth of the recursion -/

theorem splitDots_length (cs : List Char) : (splitDots cs).length = cs.count '.' + 1 := by
  induction cs with
  | nil => simp [splitDots]
  | cons c rest ih =>
    simp only [splitDots]
    split
    · next hc => subst hc; simp [ih]
    · next hc =>
      have hne : (c == '.') = false := by simpa using hc
      split
      · next hnil => exact absurd hnil (splitDots_ne_nil rest)
      · next p ps hps =>
        rw [hps] at ih
        simp only [List.length_cons] at ih ⊢
        rw [List.count_cons, hne]
        simpa using ih

theorem segments_eq (name : String) : segments name = dots name + 1 := by
  simp [segments, splitPath, dots, splitDots_length]

theorem dots_append (a b : String) : dots (a ++ b) = dots a + dots b := by
  simp [dots, String.data_append, List.count_append]

theorem segments_chainName (n : Nat) : segments (chainName n) = n + 1 := by
  rw [segments_eq]
  induction n with
  | zero => decide
  | succ k ih =>
    have hd : dots "a." = 1 := by decide
    simp only [chainName, dots_append, hd]
    omega

theorem chainMapping_length (n : Nat) : (chainMapping n).length > 0 := by
  cases n <;> simp [chainMapping]

theorem chainMapping_properties (n : Nat) :
    objectProperties plainAccessors (chainMapping (n + 1)) "a" = some (chainMapping n) := by
  have hl := chainMapping_length n
  simp [objectProperties, plainAccessors, chainMapping, dottedHelper, dottedString, dottedGet,
    splitPath, splitDots, getPath, lookupKey, recognisedTags, hl]

/-- The innermost mapping of `chainMapping n` is reached through `n` objects. -/
theorem descend_chain (n : Nat) :
    descend plainAccessors (chainMapping n) (List.replicate n "a") = some (chainMapping 0) := by
  induction n with
  | zero => rfl
  | succ k ih =>
    have hkey : "a" ∈ (chainMapping (k + 1)).Keys := by simp [chainMapping, JsonHelper.Keys]
    simp only [List.replicate_succ, descend, hkey, if_true, chainMapping_properties]
    exact ih

theorem pathPrefix_chain (n : Nat) :
    ∀ pfx : String, pathPrefix pfx (List.replicate n "a") ++ "a" = pfx ++ chainName n := by
  induction n with
  | zero => intro pfx; rfl
  | succ k ih =>
    intro pfx
    have : ("a" : String) ++ "." = "a." := by decide
    simp only [List.replicate_succ, pathPrefix, ih, chainName, String.append_assoc, this]

/-- With accessors that never panic the turn of a property returns, if the nested calls
do. -/
theorem buildEsFieldsBody_returns (g : Accessors)
    (hH : ∀ j n, ∃ h, g.Helper j n = some h) (hS : ∀ j n, ∃ x, g.StringOf j n = some x)
    (self : Table → JsonHelper → String → Nat → Option Table)
    (hself : ∀ t j p d, ∃ t2, self t j p d = some t2)
    (jh : JsonHelper) (pfx : String) (depth : Nat) (tbl : Table) (field : String) :
    ∃ t2, buildEsFieldsBody g self jh pfx depth tbl field = some t2 := by
  obtain ⟨h, hd⟩ := hH jh field
  obtain ⟨tag, ht⟩ := hS h "type"
  obtain ⟨props, hp⟩ := hH h "properties"
  unfold buildEsFieldsBody
  simp only [hd, ht, hp]
  split_ifs with hlen h1 h2 h3 h4 h5
  all_goals first
    | exact ⟨_, rfl⟩
    | (obtain ⟨t2, hs⟩ := hself
         (tbl.AddValues [.str (pfx ++ field), .str "object", .str "YES", .str "", .null,
           .str objectDescription]) props (pfx ++ field ++ ".") (depth + 1)
       rw [hs]
       exact ⟨_, rfl⟩)

theorem forKeys_returns (body : Table → String → Option Table)
    (hbody : ∀ t k, ∃ t2, body t k = some t2) (ks : List String) :
    ∀ tbl : Table, ∃ t2, forKeys body ks tbl = some t2 := by
  induction ks with
  | nil => intro tbl; exact ⟨tbl, rfl⟩
  | cons k rest ih =>
    intro tbl
    obtain ⟨t1, h1⟩ := hbody tbl k
    obtain ⟨t2, h2⟩ := ih t1
    exact ⟨t2, by simp only [forKeys, h1, h2]⟩

theorem buildEsFieldsFuel_returns (g : Accessors)
    (hH : ∀ j n, ∃ h, g.Helper j n = some h) (hS : ∀ j n, ∃ x, g.StringOf j n = some x)
    (s : Schema) :
    ∀ (fuel : Nat) (tbl : Table) (jh : JsonHelper) (pfx : String) (depth : Nat),
      ∃ t2, buildEsFieldsFuel g fuel s tbl jh pfx depth = some t2 := by
  intro fuel
  induction fuel with
  | zero => intro tbl jh pfx depth; exact ⟨tbl, rfl⟩
  | succ n ih =>
    intro tbl jh pfx depth
    simp only [buildEsFieldsFuel]
    exact forKeys_returns _
      (fun t k => buildEsFieldsBody_returns g hH hS _ (fun t j p d => ih t j p d) jh pfx depth
        t k) _ _

/-- With the accessors of the examples `buildEsFields` returns. -/
theorem buildEsFields_plain_returns (s : Schema) (tbl : Table) (jh : JsonHelper)
    (pfx : String) (depth : Nat) :
    ∃ t2, buildEsFields plainAccessors s tbl jh pfx depth = some t2 :=
  buildEsFieldsFuel_returns plainAccessors (fun _ _ => ⟨_, rfl⟩) (fun _ _ => ⟨_, rfl⟩) s _ tbl jh
    pfx depth

/-- The innermost property of `chainMapping n` becomes a field, under its whole path. -/
theorem buildEsFields_chain (s : Schema) (n : Nat) (tbl : Table) (pfx : String) (depth : Nat) :
    ∃ tbl2, buildEsFields plainAccessors s tbl (chainMapping n) pfx depth = some tbl2
      ∧ ∃ f ∈ tbl2.AddedFields, f.Name = pfx ++ chainName n := by
  obtain ⟨tbl2, hret⟩ := buildEsFields_plain_returns s tbl (chainMapping n) pfx depth
  refine ⟨tbl2, hret, ?_⟩
  obtain ⟨t, t2, _, hcall, he⟩ := buildEsFields_descend plainAccessors plainAccessors_inside s
    (List.replicate n "a") (chainMapping n) (chainMapping 0) tbl pfx depth tbl2
    (descend_chain n) hret
  obtain ⟨_, ⟨f, hf, hn⟩⟩ := buildEsFields_adds_name plainAccessors s t (chainMapping 0) _ _ "a"
    [("type", .str "string")] t2 (by decide) rfl (by decide) hcall
  exact ⟨f, he.mem_added hf, by rw [hn, pathPrefix_chain]⟩

/-- C4 fails on the code: `buildEsFields` hands the depth on and compares it with
nothing. For every `N` the call on `chainMapping (N + 1)`, in which objects are nested
`N + 1` levels deep, started at depth 0 with the empty prefix, returns, and it has passed
to `AddField` the field `chainName (N + 1)`, whose dotted path has `N + 2` segments; so no
number bounds the segments of the fields that such calls add. -/
theorem buildEsFields_no_ceiling :
    (∀ N : Nat, ∃ tbl2 : Table,
        buildEsFields plainAccessors emptySchema (NewTable "t" emptySchema)
            (chainMapping (N + 1)) "" 0 = some tbl2
          ∧ ∃ f ∈ tbl2.AddedFields, f.Name = chainName (N + 1) ∧ segments f.Name = N + 2)
      ∧ ¬ ∃ N : Nat, ∀ (jh : JsonHelper) (tbl2 : Table),
          buildEsFields plainAccessors emptySchema (NewTable "t" emptySchema) jh "" 0
              = some tbl2 →
          ∀ f ∈ tbl2.AddedFields, segments f.Name ≤ N + 1 := by
  have hall : ∀ N : Nat, ∃ tbl2 : Table,
      buildEsFields plainAccessors emptySchema (NewTable "t" emptySchema)
          (chainMapping (N + 1)) "" 0 = some tbl2
        ∧ ∃ f ∈ tbl2.AddedFields, f.Name = chainName (N + 1) ∧ segments f.Name = N + 2 := by
    intro N
    obtain ⟨tbl2, hret, f, hf, hn⟩ :=
      buildEsFields_chain emptySchema (N + 1) (NewTable "t" emptySchema) "" 0
    rw [String.empty_append] at hn
    exact ⟨tbl2, hret, f, hf, hn, by rw [hn, segments_chainName]⟩
  refine ⟨hall, ?_⟩
  rintro ⟨N, h⟩
  obtain ⟨tbl2, hret, f, hf, _, hseg⟩ := hall N
  have h1 := h (chainMapping (N + 1)) tbl2 hret f hf
  omega

/-! ## The field list of a descriptor -/

theorem keepFirst_keeps (l : List Field) : ∀ kept : List Field, kept <+: keepFirst kept l := by
  induction l with
  | nil => intro kept; exact List.prefix_refl _
  | cons f rest ih =>
    intro kept
    simp only [keepFirst]
    split_ifs
    · exact ih kept
    · exact (List.prefix_append kept [f]).trans (ih _)

theorem keepFirst_append (a b : List Field) :
    ∀ kept : List Field, keepFirst kept (a ++ b) = keepFirst (keepFirst kept a) b := by
  induction a with
  | nil => intro kept; rfl
  | cons f rest ih =>
    intro kept
    simp only [List.cons_append, keepFirst]
    split_ifs
    · exact ih kept
    · exact ih _

/-- More calls on a descriptor leave the fields of its list in their places. -/
theorem Extends.fields_kept {t₁ t₂ : Table} (h : Extends t₁ t₂) : t₁.Fields <+: t₂.Fields := by
  obtain ⟨more, hmore⟩ := h.added_kept
  simp only [Table.Fields, ← hmore, keepFirst_append]
  exact keepFirst_keeps _ _

/-- The field list holds one field of a name at most. -/
theorem keepFirst_nodup (l : List Field) :
    ∀ kept : List Field, (kept.map (fun f => f.Name)).Nodup →
      ((keepFirst kept l).map (fun f => f.Name)).Nodup := by
  induction l with
  | nil => intro kept h; exact h
  | cons f rest ih =>
    intro kept h
    simp only [keepFirst]
    split_ifs with hm
    · exact ih kept h
    · apply ih
      rw [List.map_append, List.map_singleton]
      exact List.Nodup.append h (List.nodup_singleton _)
        (by simpa [List.disjoint_singleton] using hm)

/-- A field of the list is the first field of its name that was passed to `AddField`. -/
theorem keepFirst_first (l : List Field) :
    ∀ kept : List Field, ∀ f ∈ keepFirst kept l,
      f ∈ kept ∨ (f.Name ∉ kept.map (fun x => x.Name)
        ∧ l.find? (fun x => x.Name = f.Name) = some f) := by
  induction l with
  | nil => intro kept f hf; exact Or.inl hf
  | cons x rest ih =>
    intro kept f hf
    simp only [keepFirst] at hf
    split_ifs at hf with hm
    · rcases ih kept f hf with h | ⟨h1, h2⟩
      · exact Or.inl h
      · refine Or.inr ⟨h1, ?_⟩
        have hne : x.Name ≠ f.Name := fun he => h1 (he ▸ hm)
        simp [List.find?, hne, h2]
    · rcases ih _ f hf with h | ⟨h1, h2⟩
      · rcases List.mem_append.mp h with h | h
        · exact Or.inl h
        · simp only [List.mem_singleton] at h
          subst h
          exact Or.inr ⟨hm, by simp [List.find?]⟩
      · simp only [List.map_append, List.map_singleton, List.mem_append, List.mem_singleton,
          not_or] at h1
        refine Or.inr ⟨h1.1, ?_⟩
        have hne : x.Name ≠ f.Name := fun he => h1.2 he.symm
        simp [List.find?, hne, h2]

/-- When no name comes twice the field list holds every field that was passed to
`AddField`. -/
theorem keepFirst_of_nodup (l : List Field) :
    ∀ kept : List Field, ((kept ++ l).map (fun f => f.Name)).Nodup →
      keepFirst kept l = kept ++ l := by
  induction l with
  | nil => intro kept _; simp [keepFirst]
  | cons x rest ih =>
    intro kept h
    have hx : x.Name ∉ kept.map (fun f => f.Name) := by
      rw [List.map_append, List.map_cons] at h
      intro hmem
      exact (List.nodup_append.mp h).2.2 hmem (List.mem_cons_self _ _)
    simp only [keepFirst, hx, if_false]
    rw [ih (kept ++ [x]) (by simpa [List.append_assoc] using h)]
    simp

/-! ## Schema discovery and its cache -/

theorem lookupTable_setTable (table : String) (tbl : Table) (tables : List (String × Table)) :
    lookupTable table (setTable table tbl tables) = some tbl := by
  induction tables with
  | nil => simp [setTable, lookupTable]
  | cons e rest ih =>
    obtain ⟨k, v⟩ := e
    simp only [setTable]
    split
    · simp [lookupTable]
    · next hne => simp [lookupTable, hne, ih]

theorem lookupTable_setTable_ne (table other : String) (tbl : Table)
    (tables : List (String × Table)) (hne : other ≠ table) :
    lookupTable other (setTable table tbl tables) = lookupTable other tables := by
  induction tables with
  | nil =>
    simp only [setTable, lookupTable]
    rw [if_neg (fun h => hne h.symm)]
  | cons e rest ih =>
    obtain ⟨k, v⟩ := e
    simp only [setTable]
    split
    · next hk =>
      subst hk
      simp only [lookupTable]
      rw [if_neg (fun h => hne h.symm), if_neg (fun h => hne h.symm)]
    · simp only [lookupTable, ih]

theorem loadTableSchema_nil (g : Accessors) (http : Http) (m : ElasticsearchDataSource)
    (table : String) (hs : m.schema = none) :
    m.loadTableSchema g http table
      = { tbl := none, err := some "no schema in use", ds := m, requests := [],
          panics := false } := by
  simp [ElasticsearchDataSource.loadTableSchema, hs]

theorem loadTableSchema_hit (g : Accessors) (http : Http) (m : ElasticsearchDataSource)
    (table : String) (tbl : Table) (hc : Cached m table tbl) :
    m.loadTableSchema g http table
      = { tbl := some tbl, err := none, ds := m, requests := [], panics := false } := by
  obtain ⟨s, hs, hl⟩ := hc
  simp [ElasticsearchDataSource.loadTableSchema, hs, hl]

/-- The five ways a call of `loadTableSchema` can go: no schema, a cached table, a reply
without keys under `table ++ ".mappings"`, a discovery, and a panic of an accessor. -/
theorem loadTableSchema_cases (g : Accessors) (http : Http) (m : ElasticsearchDataSource)
    (table : String) :
    (m.schema = none
        ∧ m.loadTableSchema g http table
          = { tbl := none, err := some "no schema in use", ds := m, requests := [],
              panics := false })
      ∨ (∃ tbl, Cached m table tbl
        ∧ m.loadTableSchema g http table
          = { tbl := some tbl, err := none, ds := m, requests := [], panics := false })
      ∨ (∃ (s : Schema) (respJh : JsonHelper),
        m.schema = some s ∧ lookupTable table s.Tables = none
        ∧ g.Helper (http (s.ChooseBackend ++ "/" ++ table ++ "/_mapping")).1
            (table ++ ".mappings") = some respJh
        ∧ respJh.Keys = []
        ∧ m.loadTableSchema g http table
          = { tbl := none, err := some "Could not process desribe", ds := m,
              requests := [s.ChooseBackend ++ "/" ++ table ++ "/_mapping"],
              panics := false })
      ∨ (∃ (s : Schema) (tbl : Table) (jh : JsonHelper),
        m.schema = some s ∧ lookupTable table s.Tables = none
        ∧ buildEsFields g s (implicitTable table) jh "" 0 = some tbl
        ∧ m.loadTableSchema g http table
          = { tbl := some tbl, err := none,
              ds := { m with schema := some { s with Tables := setTable table tbl s.Tables } },
              requests := [s.ChooseBackend ++ "/" ++ table ++ "/_mapping"],
              panics := false })
      ∨ (∃ s : Schema, m.schema = some s ∧ lookupTable table s.Tables = none
        ∧ m.loadTableSchema g http table
          = { tbl := none, err := none, ds := m,
              requests := [s.ChooseBackend ++ "/" ++ table ++ "/_mapping"],
              panics := true }) := by
  cases hs : m.schema with
  | none => exact Or.inl ⟨rfl, loadTableSchema_nil g http m table hs⟩
  | some s =>
    cases hl : lookupTable table s.Tables with
    | some tbl =>
      exact Or.inr (Or.inl ⟨tbl, ⟨s, hs, hl⟩, loadTableSchema_hit g http m table tbl ⟨s, hs, hl⟩⟩)
    | none =>
      cases hr : g.Helper (http (s.ChooseBackend ++ "/" ++ table ++ "/_mapping")).1
          (table ++ ".mappings") with
      | none =>
        refine Or.inr (Or.inr (Or.inr (Or.inr ⟨s, rfl, hl, ?_⟩)))
        simp only [ElasticsearchDataSource.loadTableSchema, hs, hl, NewTable, hr]
      | some respJh =>
        by_cases hk : respJh.Keys.length < 1
        · refine Or.inr (Or.inr (Or.inl ⟨s, respJh, rfl, hl, hr, ?_, ?_⟩))
          · exact List.length_eq_zero.mp (by omega)
          · simp only [ElasticsearchDataSource.loadTableSchema, hs, hl, NewTable, hr]
            rw [if_pos hk]
        · cases hi : g.Helper respJh (chooseIndexType respJh.Keys) with
          | none =>
            refine Or.inr (Or.inr (Or.inr (Or.inr ⟨s, rfl, hl, ?_⟩)))
            simp only [ElasticsearchDataSource.loadTableSchema, hs, hl, NewTable, hr]
            rw [if_neg hk]
            simp only [hi]
          | some jh0 =>
            cases hp : g.Helper jh0 "properties" with
            | none =>
              refine Or.inr (Or.inr (Or.inr (Or.inr ⟨s, rfl, hl, ?_⟩)))
              simp only [ElasticsearchDataSource.loadTableSchema, hs, hl, NewTable, hr]
              rw [if_neg hk]
              simp only [hi, hp]
            | some jh =>
              cases hb : buildEsFields g s (implicitTable table) jh "" 0 with
              | none =>
                refine Or.inr (Or.inr (Or.inr (Or.inr ⟨s, rfl, hl, ?_⟩)))
                simp only [ElasticsearchDataSource.loadTableSchema, hs, hl, NewTable, hr]
                rw [if_neg hk]
                simp only [hi, hp]
                have hb2 : buildEsFields g s ((((((({ Name := table, Calls := [] } : Table).AddField
                    (NewField "_id" .StringType 24 (.str "AUTOGEN"))).AddField
                    (NewField "type" .StringType 24 (.str "tbd"))).AddField
                    (NewField "_score" .NumberType 24
                      (.str "Created per Search By Elasticsearch"))).AddValues
                    [.str "_id", .str "string", .str "NO", .str "PRI", .str "AUTOGEN",
                      .str ""]).AddValues
                    [.str "type", .str "string", .str "NO", .str "", .null, .str "tbd"]).AddValues
                    [.str "_score", .str "float", .str "NO", .str "", .null,
                      .str "Created per search"]) jh "" 0 = none := hb
                rw [hb2]
              | some tbl =>
                refine Or.inr (Or.inr (Or.inr (Or.inl ⟨s, tbl, jh, rfl, hl, hb, ?_⟩)))
                simp only [ElasticsearchDataSource.loadTableSchema, hs, hl, NewTable, hr]
                rw [if_neg hk]
                simp only [hi, hp]
                have hb2 : buildEsFields g s ((((((({ Name := table, Calls := [] } : Table).AddField
                    (NewField "_id" .StringType 24 (.str "AUTOGEN"))).AddField
                    (NewField "type" .StringType 24 (.str "tbd"))).AddField
                    (NewField "_score" .NumberType 24
                      (.str "Created per Search By Elasticsearch"))).AddValues
                    [.str "_id", .str "string", .str "NO", .str "PRI", .str "AUTOGEN",
                      .str ""]).AddValues
                    [.str "type", .str "string", .str "NO", .str "", .null, .str "tbd"]).AddValues
                    [.str "_score", .str "float", .str "NO", .str "", .null,
                      .str "Created per search"]) jh "" 0 = some tbl := hb
                rw [hb2]

theorem implicitTable_fields (table : String) : (implicitTable table).Fields = implicitFields :=
  rfl

theorem implicitTable_rows (table : String) :
    (implicitTable table).DescribeValues = implicitRows :=
  rfl

theorem implicitTable_added (table : String) :
    (implicitTable table).AddedFields = implicitFields :=
  rfl

/-- A table built by a discovery starts with the implicit calls, fields and rows. -/
theorem discovered_implicit_first (g : Accessors) (s : Schema) (table : String)
    (jh : JsonHelper) (tbl : Table)
    (h : buildEsFields g s (implicitTable table) jh "" 0 = some tbl) :
    implicitCalls <+: tbl.Calls ∧ implicitFields <+: tbl.Fields
      ∧ implicitRows <+: tbl.DescribeValues ∧ implicitFields <+: tbl.AddedFields := by
  have he := buildEsFields_extends g s (implicitTable table) jh "" 0 tbl h
  exact ⟨he.2, he.fields_kept, he.rows_kept, he.added_kept⟩

/-- After a call that returns a table, the table is in the cache of the adapter. -/
theorem loadTableSchema_caches (g : Accessors) (http : Http) (m : ElasticsearchDataSource)
    (table : String) (tbl : Table) (hok : (m.loadTableSchema g http table).tbl = some tbl) :
    Cached (m.loadTableSchema g http table).ds table tbl := by
  rcases loadTableSchema_cases g http m table with ⟨_, hr⟩ | ⟨t, hc, hr⟩ | ⟨s, _, _, _, _, _, hr⟩
    | ⟨s, t, jh, hs, hl, ht, hr⟩ | ⟨s, _, _, hr⟩
  · rw [hr] at hok; simp at hok
  · rw [hr] at hok ⊢
    simp only [Option.some.injEq] at hok
    subst hok
    exact hc
  · rw [hr] at hok; simp at hok
  · rw [hr] at hok ⊢
    simp only [Option.some.injEq] at hok
    subst hok
    exact ⟨_, rfl, lookupTable_setTable _ _ _⟩
  · rw [hr] at hok; simp at hok

/-- A call for any table keeps what the cache holds for `table`. -/
theorem loadTableSchema_keeps_cached (g : Accessors) (http : Http)
    (m : ElasticsearchDataSource) (table other : String) (tbl : Table)
    (hc : Cached m table tbl) :
    Cached (m.loadTableSchema g http other).ds table tbl := by
  rcases loadTableSchema_cases g http m other with ⟨_, hr⟩ | ⟨t, _, hr⟩
    | ⟨s, _, _, _, _, _, hr⟩ | ⟨s, t, jh, hs, hl, ht, hr⟩ | ⟨s, _, _, hr⟩
  · rw [hr]; exact hc
  · rw [hr]; exact hc
  · rw [hr]; exact hc
  · rw [hr]
    obtain ⟨s2, hs2, hl2⟩ := hc
    rw [hs] at hs2
    simp only [Option.some.injEq] at hs2
    subst hs2
    have hne : table ≠ other := by
      intro h
      rw [h, hl] at hl2
      simp at hl2
    exact ⟨_, rfl, by rw [lookupTable_setTable_ne _ _ _ _ hne]; exact hl2⟩
  · rw [hr]; exact hc

theorem runTables_keeps_cached (g : Accessors) (calls : List (Http × String)) :
    ∀ (m : ElasticsearchDataSource) (table : String) (tbl : Table),
      Cached m table tbl → Cached (runTables g m calls) table tbl := by
  induction calls with
  | nil => intro m table tbl hc; exact hc
  | cons c rest ih =>
    intro m table tbl hc
    obtain ⟨http, other⟩ := c
    exact ih _ table tbl (loadTableSchema_keeps_cached g http m table other tbl hc)

/-- A call of `loadTableSchema` for a table that is not cached, when it returns a
descriptor, returns what `buildEsFields` made of the implicit table. -/
theorem loadTableSchema_discovered (g : Accessors) (http : Http) (m : ElasticsearchDataSource)
    (table : String) (tbl : Table)
    (hmiss : ∀ s, m.schema = some s → lookupTable table s.Tables = none)
    (hok : (m.loadTableSchema g http table).tbl = some tbl) :
    ∃ (s : Schema) (jh : JsonHelper),
      m.schema = some s ∧ buildEsFields g s (implicitTable table) jh "" 0 = some tbl := by
  rcases loadTableSchema_cases g http m table with ⟨_, hr⟩ | ⟨t, hc, hr⟩ | ⟨s, _, _, _, _, _, hr⟩
    | ⟨s, t, jh, hs, hl, ht, hr⟩ | ⟨s, _, _, hr⟩
  · rw [hr] at hok; simp at hok
  · obtain ⟨s1, hs1, hl1⟩ := hc
    rw [hmiss s1 hs1] at hl1
    simp at hl1
  · rw [hr] at hok; simp at hok
  · rw [hr] at hok
    simp only [Option.some.injEq] at hok
    subst hok
    exact ⟨s, jh, hs, ht⟩
  · rw [hr] at hok; simp at hok

/-- C5: when the cache holds for `table`, if anything, a table that starts with the
implicit fields and rows (as in a schema without cached tables), the descriptor that
`loadTableSchema` returns starts with the fields `_id` (string), `type` (string) and
`_score` (number), in this order and before every field of the mapping, its describe
rows start with the rows `_id`, `type`, `_score`, and so does what the cache holds for
`table` after the call. When the table is not cached before the call, the first six calls
on the descriptor are the three calls of `AddField` and the three calls of `AddValues` for
the implicit fields, before every call for the mapping. -/
theorem loadTableSchema_implicit_first (g : Accessors) (http : Http)
    (m : ElasticsearchDataSource) (table : String) (tbl : Table)
    (hcache : ∀ t, Cached m table t →
      implicitFields <+: t.Fields ∧ implicitRows <+: t.DescribeValues)
    (hok : (m.loadTableSchema g http table).tbl = some tbl) :
    (implicitFields <+: tbl.Fields ∧ implicitRows <+: tbl.DescribeValues)
      ∧ (tbl.Fields.take 3).map (fun f => (f.Name, f.ValType))
          = [("_id", .StringType), ("type", .StringType), ("_score", .NumberType)]
      ∧ (tbl.DescribeValues.take 3).map rowName = ["_id", "type", "_score"]
      ∧ (∀ t, Cached (m.loadTableSchema g http table).ds table t →
          implicitFields <+: t.Fields ∧ implicitRows <+: t.DescribeValues)
      ∧ ((∀ s, m.schema = some s → lookupTable table s.Tables = none) →
          implicitCalls <+: tbl.Calls ∧ implicitFields <+: tbl.AddedFields) := by
  have hpre : implicitFields <+: tbl.Fields ∧ implicitRows <+: tbl.DescribeValues := by
    rcases loadTableSchema_cases g http m table with ⟨_, hr⟩ | ⟨t, hc, hr⟩
      | ⟨s, _, _, _, _, _, hr⟩ | ⟨s, t, jh, hs, hl, ht, hr⟩ | ⟨s, _, _, hr⟩
    · rw [hr] at hok; simp at hok
    · rw [hr] at hok
      simp only [Option.some.injEq] at hok
      subst hok
      exact hcache _ hc
    · rw [hr] at hok; simp at hok
    · rw [hr] at hok
      simp only [Option.some.injEq] at hok
      subst hok
      have hd := discovered_implicit_first g s table jh _ ht
      exact ⟨hd.2.1, hd.2.2.1⟩
    · rw [hr] at hok; simp at hok
  refine ⟨hpre, ?_, ?_, ?_, ?_⟩
  · obtain ⟨⟨rest, hrest⟩, _⟩ := hpre
    rw [← hrest]
    simp [implicitFields, NewField]
  · obtain ⟨_, ⟨rows, hrows⟩⟩ := hpre
    rw [← hrows]
    simp [implicitRows, rowName]
  · intro t ht
    obtain ⟨s1, hs1, hl1⟩ := loadTableSchema_caches g http m table tbl hok
    obtain ⟨s2, hs2, hl2⟩ := ht
    rw [hs1] at hs2
    simp only [Option.some.injEq] at hs2
    subst hs2
    rw [hl1] at hl2
    simp only [Option.some.injEq] at hl2
    subst hl2
    exact hpre
  · intro hmiss
    obtain ⟨s, jh, _, hb⟩ := loadTableSchema_discovered g http m table tbl hmiss hok
    have hd := discovered_implicit_first g s table jh _ hb
    exact ⟨hd.1, hd.2.2.2⟩

/-- C5 at a schema without cached tables and a backend whose index `t` has the string
property `title`, with the accessors of the examples: the call returns a descriptor, and
it starts with `_id`, `type`, `_score`. -/
theorem loadTableSchema_implicit_first_witness :
    (∀ t, Cached freshSource "t" t →
        implicitFields <+: t.Fields ∧ implicitRows <+: t.DescribeValues)
      ∧ (freshSource.loadTableSchema plainAccessors titleHttp "t").tbl
          = some { Name := "t",
                   Calls := implicitCalls ++
                     [.AddValues [.str "title", .str "string", .str "YES", .str "", .null,
                        .json [("type", .str "string")]],
                      .AddField ⟨"title", .StringType, 512, .json [("type", .str "string")]⟩] }
      ∧ ((Table.Fields
            { Name := "t",
              Calls := implicitCalls ++
                [.AddValues [.str "title", .str "string", .str "YES", .str "", .null,
                   .json [("type", .str "string")]],
                 .AddField ⟨"title", .StringType, 512,
                   .json [("type", .str "string")]⟩] }).take 3).map
            (fun f => (f.Name, f.ValType))
          = [("_id", .StringType), ("type", .StringType), ("_score", .NumberType)] :=
  ⟨fun t ⟨s, hs, hl⟩ => by cases hs; simp [emptySchema, lookupTable] at hl, rfl,
    (loadTableSchema_implicit_first plainAccessors titleHttp freshSource "t" _
      (fun t ⟨s, hs, hl⟩ => by cases hs; simp [emptySchema, lookupTable] at hl) rfl).2.1⟩

/-- C6: after a call of `loadTableSchema` for `table` has returned a descriptor, every
later call for `table` on the same adapter, also after calls of `Table` for any tables
with any replies of the backend, returns the same descriptor and no error, requests
nothing from the backend and leaves the adapter, its cache included, as it is, whatever
the backend would reply now. -/
theorem loadTableSchema_cached (g : Accessors) (http : Http) (m : ElasticsearchDataSource)
    (table : String) (tbl : Table) (hok : (m.loadTableSchema g http table).tbl = some tbl)
    (calls : List (Http × String)) (http2 : Http) :
    (runTables g (m.loadTableSchema g http table).ds calls).loadTableSchema g http2 table
      = { tbl := some tbl, err := none,
          ds := runTables g (m.loadTableSchema g http table).ds calls, requests := [],
          panics := false } :=
  loadTableSchema_hit g http2 _ table tbl
    (runTables_keeps_cached g calls _ table tbl (loadTableSchema_caches g http m table tbl hok))

/-- C6 at a first discovery of `t`, followed by a failed discovery of `u`: the next call
for `t` asks a backend that would now reply nothing, and requests nothing. -/
theorem loadTableSchema_cached_witness :
    (freshSource.loadTableSchema plainAccessors titleHttp "t").tbl
        = some { Name := "t",
                 Calls := implicitCalls ++
                   [.AddValues [.str "title", .str "string", .str "YES", .str "", .null,
                      .json [("type", .str "string")]],
                    .AddField ⟨"title", .StringType, 512, .json [("type", .str "string")]⟩] }
      ∧ ((runTables plainAccessors (freshSource.loadTableSchema plainAccessors titleHttp "t").ds
            [(emptyHttp, "u")]).loadTableSchema plainAccessors emptyHttp "t").requests = []
      ∧ ((runTables plainAccessors (freshSource.loadTableSchema plainAccessors titleHttp "t").ds
            [(emptyHttp, "u")]).loadTableSchema plainAccessors emptyHttp "t").tbl
          = some { Name := "t",
                   Calls := implicitCalls ++
                     [.AddValues [.str "title", .str "string", .str "YES", .str "", .null,
                        .json [("type", .str "string")]],
                      .AddField ⟨"title", .StringType, 512, .json [("type", .str "string")]⟩] } :=
  ⟨rfl,
    congrArg Outcome.requests
      (loadTableSchema_cached plainAccessors titleHttp freshSource "t" _ rfl [(emptyHttp, "u")]
        emptyHttp),
    congrArg Outcome.tbl
      (loadTableSchema_cached plainAccessors titleHttp freshSource "t" _ rfl [(emptyHttp, "u")]
        emptyHttp)⟩

/-- C7: whenever `loadTableSchema` returns an error it returns no descriptor and leaves
the adapter, and with it the table cache of the schema, exactly as it was; and an error
means that there is no schema in use, or that the table is not cached and what
`respJh.Helper(table + ".mappings")` answers for the reply of the backend has no key. -/
theorem loadTableSchema_error (g : Accessors) (http : Http) (m : ElasticsearchDataSource)
    (table : String) (herr : (m.loadTableSchema g http table).err ≠ none) :
    (m.loadTableSchema g http table).tbl = none
      ∧ (m.loadTableSchema g http table).ds = m
      ∧ (m.schema = none
        ∨ ∃ (s : Schema) (respJh : JsonHelper),
          m.schema = some s ∧ lookupTable table s.Tables = none
          ∧ g.Helper (http (s.ChooseBackend ++ "/" ++ table ++ "/_mapping")).1
              (table ++ ".mappings") = some respJh
          ∧ respJh.Keys = []) := by
  rcases loadTableSchema_cases g http m table with ⟨hs, hr⟩ | ⟨t, _, hr⟩
    | ⟨s, respJh, hs, hl, hh, hk, hr⟩ | ⟨s, t, jh, _, _, _, hr⟩ | ⟨s, _, _, hr⟩
  · rw [hr]; exact ⟨rfl, rfl, Or.inl hs⟩
  · rw [hr] at herr; simp at herr
  · rw [hr]; exact ⟨rfl, rfl, Or.inr ⟨s, respJh, hs, hl, hh, hk⟩⟩
  · rw [hr] at herr; simp at herr
  · rw [hr] at herr; simp at herr

/-- C7 at a schema without cached tables and a backend that replies nothing: the call
fails, returns no descriptor, and the adapter is as before. -/
theorem loadTableSchema_error_witness :
    (freshSource.loadTableSchema plainAccessors emptyHttp "t").err ≠ none
      ∧ (freshSource.loadTableSchema plainAccessors emptyHttp "t").tbl = none
      ∧ (freshSource.loadTableSchema plainAccessors emptyHttp "t").ds = freshSource :=
  ⟨by decide,
    (loadTableSchema_error plainAccessors emptyHttp freshSource "t" (by decide)).1,
    (loadTableSchema_error plainAccessors emptyHttp freshSource "t" (by decide)).2.1⟩

/-- C8 fails on the code at `failingHttp`: the request returns an error together with a
reply that holds a mapping for `t`; `loadTableSchema` returns no error, returns the
descriptor built from that reply, and caches it. -/
theorem loadTableSchema_swallows_request_error :
    (failingHttp (emptySchema.ChooseBackend ++ "/" ++ "t" ++ "/_mapping")).2 ≠ none
      ∧ (lookupTable "t" emptySchema.Tables).isSome = false
      ∧ (freshSource.loadTableSchema plainAccessors failingHttp "t").err = none
      ∧ (freshSource.loadTableSchema plainAccessors failingHttp "t").panics = false
      ∧ (freshSource.loadTableSchema plainAccessors failingHttp "t").tbl.map
            (fun t => t.Fields.map (fun f => f.Name))
          = some ["_id", "type", "_score", "title"]
      ∧ (freshSource.loadTableSchema plainAccessors failingHttp "t").tbl.map addedFieldNames
          = some ["_id", "type", "_score", "title"]
      ∧ (freshSource.loadTableSchema plainAccessors failingHttp "t").ds.schema.map
          (fun s => (lookupTable "t" s.Tables).isSome) = some true := by
  decide

/-- C9 as stated fails at `idHttp`, whose mapping declares a property `_id`: the
discovery calls `AddValues` and `AddField` a second time under the name `_id`, and the
descriptor that `loadTableSchema` returns has two describe rows named `_id`. -/
theorem loadTableSchema_duplicate_names :
    (freshSource.loadTableSchema plainAccessors idHttp "t").tbl.map rowNames
        = some ["_id", "type", "_score", "_id"]
      ∧ (freshSource.loadTableSchema plainAccessors idHttp "t").tbl.map addedFieldNames
        = some ["_id", "type", "_score", "_id"]
      ∧ ¬ (["_id", "type", "_score", "_id"] : List String).Nodup := by
  decide

theorem find?_mono {α : Type} (p : α → Bool) {l₁ l₂ : List α} (h : l₁ <+: l₂) {a : α}
    (ha : l₁.find? p = some a) : l₂.find? p = some a := by
  obtain ⟨rest, rfl⟩ := h
  rw [List.find?_append, ha]
  rfl

/-- The turn of a property passes a field of its name to `AddField` once more. -/
theorem turn_count_added {name : String} {t₁ t₂ : Table} (h : Turn name t₁ t₂) :
    (addedFieldNames t₁).count name + 1 ≤ (addedFieldNames t₂).count name := by
  obtain ⟨row, fld, cs, hc, hrow, hfld, _⟩ := h
  rw [addedFieldNames_eq, addedFieldNames_eq, hc, fieldNamesOf_append, List.count_append]
  have : fieldNamesOf (.AddValues row :: (cs ++ [.AddField fld]))
      = fieldNamesOf cs ++ [name] := by
    simp [fieldNamesOf, List.filterMap_append, hfld]
  rw [this, List.count_append, List.count_singleton_self]
  omega

theorem extends_count_added {t₁ t₂ : Table} (h : Extends t₁ t₂) (name : String) :
    (addedFieldNames t₁).count name ≤ (addedFieldNames t₂).count name := by
  obtain ⟨_, cs, hc⟩ := h
  rw [addedFieldNames_eq, addedFieldNames_eq, ← hc, fieldNamesOf_append, List.count_append]
  omega

/-- A call of `buildEsFields` that returns has called `AddValues` and `AddField` once
more under the name of each property with a definition, whatever the table held. -/
theorem buildEsFields_adds_again (g : Accessors) (s : Schema) (tbl : Table) (jh : JsonHelper)
    (pfx : String) (depth : Nat) (field : String) (h : JsonHelper) (tbl2 : Table)
    (hkey : field ∈ jh.Keys) (hdef : g.Helper jh field = some h) (hlen : h.length > 0)
    (hret : buildEsFields g s tbl jh pfx depth = some tbl2) :
    (rowNames tbl).count (pfx ++ field) + 1 ≤ (rowNames tbl2).count (pfx ++ field)
      ∧ (addedFieldNames tbl).count (pfx ++ field) + 1
          ≤ (addedFieldNames tbl2).count (pfx ++ field) := by
  obtain ⟨t, t2, h1, hb, h2⟩ := buildEsFields_turn g s tbl jh pfx depth tbl2 field hkey hret
  have ht := buildEsFieldsBody_turn g _ (buildEsFieldsFuel_paired g s (heightMembers jh)) jh pfx
    depth t field h hdef hlen t2 hb
  have a1 := extends_count h1 (pfx ++ field)
  have a2 := turn_count ht
  have a3 := extends_count h2 (pfx ++ field)
  have b1 := extends_count_added h1 (pfx ++ field)
  have b2 := turn_count_added ht
  have b3 := extends_count_added h2 (pfx ++ field)
  exact ⟨by omega, by omega⟩

/-- C9, amended: the field list of a descriptor holds one field of a name at most, the
first that was passed to `AddField`, and a discovery keeps the fields and describe rows of
a table in their places; so in the descriptor of a discovery the fields and the first
describe rows named `_id`, `type`, `_score` are the implicit ones, whatever the mapping
declares. The adapter itself does not look at the names: for every property with a
definition `buildEsFields` calls `AddValues` and `AddField` once more under its name,
also when the table has a row and a field of that name, so that describe rows are added
again: a top-level property of the mapping has at least one describe row more under its
name than the implicit table. -/
theorem discovery_first_stays (g : Accessors) (http : Http) (m : ElasticsearchDataSource)
    (table : String) (s : Schema) (tbl : Table)
    (hs : m.schema = some s) (hmiss : lookupTable table s.Tables = none)
    (hok : (m.loadTableSchema g http table).tbl = some tbl) :
    (fieldNames tbl).Nodup
      ∧ (∀ f ∈ tbl.Fields, tbl.AddedFields.find? (fun x => x.Name = f.Name) = some f)
      ∧ (∀ f ∈ implicitFields, f ∈ tbl.Fields
          ∧ tbl.Fields.find? (fun x => x.Name = f.Name) = some f)
      ∧ (∀ row ∈ implicitRows,
          tbl.DescribeValues.find? (fun r => rowName r = rowName row) = some row)
      ∧ (∀ (s2 : Schema) (t : Table) (jh : JsonHelper) (pfx : String) (depth : Nat)
          (t2 : Table), buildEsFields g s2 t jh pfx depth = some t2 →
          t.Calls <+: t2.Calls ∧ t.Fields <+: t2.Fields
            ∧ t.DescribeValues <+: t2.DescribeValues
            ∧ (∀ name f, t.Fields.find? (fun x => x.Name = name) = some f →
                t2.Fields.find? (fun x => x.Name = name) = some f)
            ∧ (∀ (field : String) (h : JsonHelper), field ∈ jh.Keys →
                g.Helper jh field = some h → h.length > 0 →
                (rowNames t).count (pfx ++ field) + 1 ≤ (rowNames t2).count (pfx ++ field)
                  ∧ (addedFieldNames t).count (pfx ++ field) + 1
                      ≤ (addedFieldNames t2).count (pfx ++ field)))
      ∧ (∃ jh : JsonHelper, buildEsFields g s (implicitTable table) jh "" 0 = some tbl
          ∧ ∀ (field : String) (h : JsonHelper), field ∈ jh.Keys →
              g.Helper jh field = some h → h.length > 0 →
              (rowNames (implicitTable table)).count field + 1 ≤ (rowNames tbl).count field
                ∧ (addedFieldNames (implicitTable table)).count field + 1
                    ≤ (addedFieldNames tbl).count field) := by
  obtain ⟨s1, jh, hs1, hb⟩ := loadTableSchema_discovered g http m table tbl
    (fun s1 hs1 => by rw [hs] at hs1; cases hs1; exact hmiss) hok
  have hd := discovered_implicit_first g s1 table jh tbl hb
  refine ⟨?_, ?_, ?_, ?_, ?_, ?_⟩
  · exact keepFirst_nodup _ [] List.nodup_nil
  · intro f hf
    rcases keepFirst_first tbl.AddedFields [] f hf with h | ⟨_, h⟩
    · simp at h
    · exact h
  · intro f hf
    refine ⟨hd.2.1.subset hf, find?_mono _ hd.2.1 ?_⟩
    simp only [implicitFields, List.mem_cons, List.mem_singleton, List.not_mem_nil,
      or_false] at hf
    rcases hf with rfl | rfl | rfl <;> simp [implicitFields, NewField, List.find?]
  · intro row hrow
    refine find?_mono _ hd.2.2.1 ?_
    simp only [implicitRows, List.mem_cons, List.mem_singleton, List.not_mem_nil,
      or_false] at hrow
    rcases hrow with rfl | rfl | rfl <;> simp [implicitRows, rowName, List.find?]
  · intro s2 t jh2 pfx depth t2 hret
    have he := buildEsFields_extends g s2 t jh2 pfx depth t2 hret
    exact ⟨he.2, he.fields_kept, he.rows_kept,
      fun name f hf => find?_mono _ he.fields_kept hf,
      fun field h hkey hdef hlen =>
        buildEsFields_adds_again g s2 t jh2 pfx depth field h t2 hkey hdef hlen hret⟩
  · rw [hs] at hs1
    cases hs1
    refine ⟨jh, hb, fun field h hkey hdef hlen => ?_⟩
    have := buildEsFields_adds_again g s (implicitTable table) jh "" 0 field h tbl hkey hdef
      hlen hb
    rwa [String.empty_append] at this

/-- C9, amended, at `idHttp` with the accessors of the examples: the table is not cached,
the discovery returns a descriptor, the one field named `_id` in its field list is the
implicit one, and the names of its fields come once each. -/
theorem discovery_first_stays_witness :
    freshSource.schema = some emptySchema
      ∧ lookupTable "t" emptySchema.Tables = none
      ∧ (freshSource.loadTableSchema plainAccessors idHttp "t").tbl
          = some { Name := "t",
                   Calls := implicitCalls ++
                     [.AddValues [.str "_id", .str "string", .str "YES", .str "", .null,
                        .json [("type", .str "string")]],
                      .AddField ⟨"_id", .StringType, 512, .json [("type", .str "string")]⟩] }
      ∧ (fieldNames
          { Name := "t",
            Calls := implicitCalls ++
              [.AddValues [.str "_id", .str "string", .str "YES", .str "", .null,
                 .json [("type", .str "string")]],
               .AddField ⟨"_id", .StringType, 512, .json [("type", .str "string")]⟩] }).Nodup :=
  ⟨rfl, rfl, rfl,
    (discovery_first_stays plainAccessors idHttp freshSource "t" emptySchema _ rfl rfl rfl).1⟩

/-- C10: `Features` returns the same capability record for every adapter in every state,
with scan, seek, where, group-by, sort and aggregations all true; it is the same after
`Table` (with any reply of the backend) and after `Close`. -/
theorem Features_fixed (m : ElasticsearchDataSource) :
    m.Features
        = ⟨true, true, true, true, true, true⟩
      ∧ (m.Features.Scan = true ∧ m.Features.Seek = true ∧ m.Features.Where = true
        ∧ m.Features.GroupBy = true ∧ m.Features.Sort_ = true
        ∧ m.Features.Aggregations = true)
      ∧ (∀ m2 : ElasticsearchDataSource, m2.Features = m.Features)
      ∧ (∀ (g : Accessors) (http : Http) (table : String),
          (m.Table g http table).ds.Features = m.Features)
      ∧ m.Close.2.Features = m.Features :=
  ⟨rfl, ⟨rfl, rfl, rfl, rfl, rfl, rfl⟩, fun _ => rfl, fun _ _ _ => rfl, rfl⟩

/-! ## Describe rows and fields go together -/

/-- C14 as stated fails at `objectHttp`, whose mapping has the object `o` with the
property `b`: the describe rows of the descriptor are named `o`, `o.b` after the implicit
ones, and the fields were passed to `AddField` as `o.b`, `o`, which is also their order in
the field list; the two sequences of names differ. -/
theorem loadTableSchema_rows_fields_order :
    (freshSource.loadTableSchema plainAccessors objectHttp "t").tbl.map rowNames
        = some ["_id", "type", "_score", "o", "o.b"]
      ∧ (freshSource.loadTableSchema plainAccessors objectHttp "t").tbl.map addedFieldNames
        = some ["_id", "type", "_score", "o.b", "o"]
      ∧ (freshSource.loadTableSchema plainAccessors objectHttp "t").tbl.map fieldNames
        = some ["_id", "type", "_score", "o.b", "o"]
      ∧ (freshSource.loadTableSchema plainAccessors objectHttp "t").tbl.map rowNames
        ≠ (freshSource.loadTableSchema plainAccessors objectHttp "t").tbl.map fieldNames := by
  decide

/-- C14, amended: in a discovery the names under which `AddValues` is called are the
names under which `AddField` is called, each as often, though not in the same order; when
no name comes twice, these are the names of the describe rows and of the field list. For
every mapping and prefix a call of `buildEsFields` that returns has made as many calls of
`AddValues` under each name as of `AddField`, and in the same order when no property has
properties of its own; the turn of a property without a definition makes no call, and the
turn of a property with a definition calls `AddValues` under its name first and `AddField`
under its name last, with the calls for its own properties between them: exactly one call
of each under its name. -/
theorem discovery_rows_and_fields (g : Accessors) (http : Http) (m : ElasticsearchDataSource)
    (table : String) (s : Schema) (tbl : Table)
    (hs : m.schema = some s) (hmiss : lookupTable table s.Tables = none)
    (hok : (m.loadTableSchema g http table).tbl = some tbl) :
    (rowNames tbl).Perm (addedFieldNames tbl)
      ∧ ((addedFieldNames tbl).Nodup →
          tbl.Fields = tbl.AddedFields ∧ (rowNames tbl).Perm (fieldNames tbl))
      ∧ (∀ (s2 : Schema) (t : Table) (jh : JsonHelper) (pfx : String) (depth : Nat),
          (∀ t2, buildEsFields g s2 t jh pfx depth = some t2 →
              Paired t t2 ∧ (Flat g jh → PairedInOrder t t2))
            ∧ (∀ (field : String) (h : JsonHelper), g.Helper jh field = some h →
                (h.length = 0 →
                    buildEsFieldsBody g (buildEsFields g s2) jh pfx depth t field = some t)
                  ∧ (h.length > 0 → ∀ t2,
                    buildEsFieldsBody g (buildEsFields g s2) jh pfx depth t field = some t2 →
                    Turn (pfx ++ field) t t2
                      ∧ (rowNames t2).count (pfx ++ field)
                          = (rowNames t).count (pfx ++ field) + 1
                      ∧ (addedFieldNames t2).count (pfx ++ field)
                          = (addedFieldNames t).count (pfx ++ field) + 1))) := by
  obtain ⟨s1, jh, _, hb⟩ := loadTableSchema_discovered g http m table tbl
    (fun s1 hs1 => by rw [hs] at hs1; cases hs1; exact hmiss) hok
  have hperm : (rowNames tbl).Perm (addedFieldNames tbl) := by
    obtain ⟨cs, hc, hp⟩ := buildEsFields_paired g s1 (implicitTable table) jh "" 0 tbl hb
    rw [rowNames_eq, addedFieldNames_eq, hc, rowNamesOf_append, fieldNamesOf_append]
    have h0 : rowNamesOf (implicitTable table).Calls
        = fieldNamesOf (implicitTable table).Calls := rfl
    rw [h0]
    exact (List.Perm.refl _).append hp
  refine ⟨hperm, ?_, ?_⟩
  · intro hnd
    have hf : tbl.Fields = tbl.AddedFields := by
      have := keepFirst_of_nodup tbl.AddedFields [] (by simpa [addedFieldNames] using hnd)
      simpa [Table.Fields] using this
    refine ⟨hf, ?_⟩
    simp only [fieldNames, hf]
    exact hperm
  · intro s2 t jh2 pfx depth
    refine ⟨fun t2 hret => ⟨buildEsFields_paired g s2 t jh2 pfx depth t2 hret,
      fun hflat => buildEsFields_inOrder g s2 t jh2 pfx depth hflat t2 hret⟩,
      fun field h hdef => ⟨fun hlen => ?_, fun hlen t2 hret => ?_⟩⟩
    · exact buildEsFieldsBody_empty g _ jh2 pfx depth t field h hdef hlen
    · exact ⟨buildEsFieldsBody_turn g _ (buildEsFields_paired g s2) jh2 pfx depth t field h
        hdef hlen t2 hret,
        buildEsFieldsBody_once g _ (buildEsFields_under g s2) jh2 pfx depth t field h hdef hlen
          t2 hret⟩

/-- C14, amended, at `objectHttp` with the accessors of the examples: the table is not
cached, the discovery returns a descriptor, and the names of its describe rows are the
names that were passed to `AddField`, in another order. -/
theorem discovery_rows_and_fields_witness :
    freshSource.schema = some emptySchema
      ∧ lookupTable "t" emptySchema.Tables = none
      ∧ (freshSource.loadTableSchema plainAccessors objectHttp "t").tbl
          = some { Name := "t",
                   Calls := implicitCalls ++
                     [.AddValues [.str "o", .str "object", .str "YES", .str "", .null,
                        .str objectDescription],
                      .AddValues [.str "o.b", .str "date", .str "YES", .str "", .null,
                        .json [("type", .str "date")]],
                      .AddField ⟨"o.b", .TimeType, 4, .json [("type", .str "date")]⟩,
                      .AddField ⟨"o", .StringType, 2000, .str objectDescription⟩] }
      ∧ (rowNames
          { Name := "t",
            Calls := implicitCalls ++
              [.AddValues [.str "o", .str "object", .str "YES", .str "", .null,
                 .str objectDescription],
               .AddValues [.str "o.b", .str "date", .str "YES", .str "", .null,
                 .json [("type", .str "date")]],
               .AddField ⟨"o.b", .TimeType, 4, .json [("type", .str "date")]⟩,
               .AddField ⟨"o", .StringType, 2000, .str objectDescription⟩] }).Perm
          (addedFieldNames
            { Name := "t",
              Calls := implicitCalls ++
                [.AddValues [.str "o", .str "object", .str "YES", .str "", .null,
                   .str objectDescription],
                 .AddValues [.str "o.b", .str "date", .str "YES", .str "", .null,
                   .json [("type", .str "date")]],
                 .AddField ⟨"o.b", .TimeType, 4, .json [("type", .str "date")]⟩,
                 .AddField ⟨"o", .StringType, 2000, .str objectDescription⟩] }) :=
  ⟨rfl, rfl, rfl,
    (discovery_rows_and_fields plainAccessors objectHttp freshSource "t" emptySchema _ rfl rfl
      rfl).1⟩

/-! ## Table names -/

theorem foldl_append_singleton (l init : List String) :
    l.foldl (fun tables key => tables ++ [key]) init = init ++ l := by
  induction l generalizing init with
  | nil => simp
  | cons k rest ih => simp [ih]

theorem data_le_iff (a b : String) : a.data ≤ b.data ↔ a ≤ b :=
  String.le_iff_toList_le.symm

theorem sortStrings_sorted (l : List String) : (sortStrings l).Sorted (fun a b => a ≤ b) := by
  haveI : IsTotal String (fun x y => x.data ≤ y.data) :=
    ⟨fun a b => by simp only [data_le_iff]; exact le_total a b⟩
  haveI : IsTrans String (fun x y => x.data ≤ y.data) :=
    ⟨fun a b c => by simp only [data_le_iff]; exact le_trans⟩
  have h := List.sorted_insertionSort (fun x y : String => x.data ≤ y.data) l
  exact h.imp (fun {a b} hab => (data_le_iff a b).mp hab)

theorem sortStrings_perm (l : List String) : (sortStrings l).Perm l :=
  List.perm_insertionSort _ l

/-- The increasing arrangement does not depend on the order in which the strings come. -/
theorem sortStrings_of_perm {l₁ l₂ : List String} (h : l₁.Perm l₂) :
    sortStrings l₁ = sortStrings l₂ :=
  List.eq_of_perm_of_sorted
    (((sortStrings_perm l₁).trans h).trans (sortStrings_perm l₂).symm)
    (sortStrings_sorted l₁) (sortStrings_sorted l₂)

/-- What `loadTableNames` does with a reply that comes without an error. -/
theorem loadTableNames_reply (http : Http) (m : ElasticsearchDataSource) (s : Schema)
    (jh : JsonHelper) (hs : m.schema = some s)
    (hreply : http "http://localhost:9200/_aliases" = (jh, none)) :
    m.loadTableNames http
      = some (none, { schema := some { s with TableNames := sortStrings jh.Keys } }) := by
  simp only [ElasticsearchDataSource.loadTableNames, hreply, hs, foldl_append_singleton,
    List.nil_append]

/-- C15: for every reply of the backend to the aliases request that comes without an
error, `loadTableNames` on an adapter with a schema returns no error and sets the table
names of the schema to the keys of the reply in increasing order: the names are sorted,
they are the keys, each as often as it is enumerated and so each once for the keys of a
map, they are the same for every order in which the keys are enumerated, and they are
none for an empty reply. Nothing else of the schema changes. -/
theorem loadTableNames_sorted (http : Http) (m : ElasticsearchDataSource) (s : Schema)
    (jh : JsonHelper) (hs : m.schema = some s)
    (hreply : http "http://localhost:9200/_aliases" = (jh, none)) :
    ∃ names : List String,
      m.loadTableNames http = some (none, { schema := some { s with TableNames := names } })
        ∧ names.Sorted (fun a b => a ≤ b)
        ∧ names.Perm jh.Keys
        ∧ (∀ k, k ∈ names ↔ k ∈ jh.Keys)
        ∧ (jh.Keys.Nodup → names.Nodup)
        ∧ (∀ (http2 : Http) (jh2 : JsonHelper),
            http2 "http://localhost:9200/_aliases" = (jh2, none) → jh2.Keys.Perm jh.Keys →
            m.loadTableNames http2 = m.loadTableNames http)
        ∧ (jh = [] → names = []) := by
  refine ⟨sortStrings jh.Keys, loadTableNames_reply http m s jh hs hreply,
    sortStrings_sorted _, sortStrings_perm _, fun k => (sortStrings_perm _).mem_iff,
    fun hn => (sortStrings_perm _).nodup_iff.mpr hn, ?_, ?_⟩
  · intro http2 jh2 hreply2 hperm
    rw [loadTableNames_reply http m s jh hs hreply,
      loadTableNames_reply http2 m s jh2 hs hreply2, sortStrings_of_perm hperm]
  · intro hnil
    subst hnil
    rfl

/-- C15 at `aliasHttp`, which enumerates the aliases `logs`, `Users`, `articles`: the
hypotheses hold, the call returns no error, and the table names are `Users`, `articles`,
`logs`. -/
theorem loadTableNames_sorted_witness :
    freshSource.schema = some emptySchema
      ∧ aliasHttp "http://localhost:9200/_aliases"
          = ([("logs", .obj []), ("Users", .obj []), ("articles", .obj [])], none)
      ∧ (freshSource.loadTableNames aliasHttp).map
          (fun r => (r.1, r.2.schema.map (fun s => s.TableNames)))
          = some (none, some ["Users", "articles", "logs"])
      ∧ ∃ names : List String,
          freshSource.loadTableNames aliasHttp
            = some (none, { schema := some { emptySchema with TableNames := names } })
          ∧ names.Sorted (fun a b => a ≤ b) :=
  ⟨rfl, rfl, by decide,
    (loadTableNames_sorted aliasHttp freshSource emptySchema
      [("logs", .obj []), ("Users", .obj []), ("articles", .obj [])] rfl rfl).imp
      (fun _ h => ⟨h.1, h.2.1⟩)⟩

/-! ## Source tasks -/

/-- C11: for a statement with a first From entry, on an adapter with a schema, `SourceTask`
looks the table up under the lower-cased name of that entry. When the schema answers no
table it returns an error and no task, and the translator is not called; otherwise it
calls the translator once, on that table and the statement, and returns the task of the
translator when the translator reports no error, and no task with the error of the
translator, unchanged, when it reports one. -/
theorem SourceTask_resolves {Task : Type} (ToLower : String → String)
    (SchemaTable : Option Schema → String → Option Table × Option String)
    (Query : Table → SqlSelect → Option Task × Option String)
    (m : ElasticsearchDataSource) (stmt : SqlSelect) (first : SqlSource)
    (rest : List SqlSource) (s : Schema)
    (hfrom : stmt.From = first :: rest) (hs : m.schema = some s) :
    ((SchemaTable m.schema (ToLower first.Name)).1 = none →
        m.SourceTask ToLower SchemaTable Query stmt
          = some { task := none,
                   err := some ("Could not find \x27" ++ s.Db ++ "\x27.\x27"
                     ++ ToLower first.Name ++ "\x27 schema"),
                   queries := [] })
      ∧ (∀ tbl, (SchemaTable m.schema (ToLower first.Name)).1 = some tbl →
          ((Query tbl stmt).2 = none →
              m.SourceTask ToLower SchemaTable Query stmt
                = some { task := (Query tbl stmt).1, err := none, queries := [(tbl, stmt)] })
            ∧ (∀ e, (Query tbl stmt).2 = some e →
              m.SourceTask ToLower SchemaTable Query stmt
                = some { task := none, err := some e, queries := [(tbl, stmt)] })) := by
  refine ⟨?_, ?_⟩
  · intro hnone
    rw [hs] at hnone
    simp only [ElasticsearchDataSource.SourceTask, hfrom, hs, hnone]
  · intro tbl hsome
    rw [hs] at hsome
    refine ⟨?_, ?_⟩
    · intro hq
      simp only [ElasticsearchDataSource.SourceTask, hfrom, hs, hsome, hq]
    · intro e hq
      simp only [ElasticsearchDataSource.SourceTask, hfrom, hs, hsome, hq]

/-- C11 at the statement `select ... from Users` on a schema that caches the table
`users`: the hypotheses hold, and the task is the one the translator gives for `users`. -/
theorem SourceTask_resolves_witness :
    (SqlSelect.mk [⟨"Users"⟩]).From = ⟨"Users"⟩ :: []
      ∧ usersSource.schema
          = some { emptySchema with Tables := [("users", NewTable "users" emptySchema)] }
      ∧ usersSource.SourceTask asciiLower cacheTable nameQuery (SqlSelect.mk [⟨"Users"⟩])
          = some { task := some "users", err := none,
                   queries := [(NewTable "users" emptySchema, SqlSelect.mk [⟨"Users"⟩])] } :=
  ⟨rfl, rfl,
    ((SourceTask_resolves asciiLower cacheTable nameQuery usersSource (SqlSelect.mk [⟨"Users"⟩])
      ⟨"Users"⟩ [] _ rfl rfl).2 (NewTable "users" emptySchema) rfl).1 rfl⟩

end Elasticsearch

namespace Mysqlfe

/-! ## The functions `DATABASE()` and `connection_id()` -/

/-- C12: for every evaluation context `DatabaseName` answers `ok = true`; its value is the
variable `@@database` of the context when the variable is there and is a string value,
and the empty string when the variable is not there or is a value of another kind. -/
theorem DatabaseName_value (ctx : EvalContext) :
    (DatabaseName ctx).2 = true
      ∧ (∀ v, ctx.Get "@@database" = (.StringValue v, true) → (DatabaseName ctx).1 = v)
      ∧ ((ctx.Get "@@database").2 = false → (DatabaseName ctx).1 = "")
      ∧ ((∀ v, (ctx.Get "@@database").1 ≠ .StringValue v) → (DatabaseName ctx).1 = "") := by
  unfold DatabaseName
  rcases hget : ctx.Get "@@database" with ⟨val, ok⟩
  cases ok <;> cases val <;> simp

/-- C13: for every evaluation context `ConnectionId` answers `ok = true`; its value is the
variable `@@connection_id` of the context when the variable is there and is an integer
value, and the integer 1 when the variable is not there or is a value of another kind. -/
theorem ConnectionId_value (ctx : EvalContext) :
    (ConnectionId ctx).2 = true
      ∧ (∀ n, ctx.Get "@@connection_id" = (.IntValue n, true) → (ConnectionId ctx).1 = n)
      ∧ ((ctx.Get "@@connection_id").2 = false → (ConnectionId ctx).1 = 1)
      ∧ ((∀ n, (ctx.Get "@@connection_id").1 ≠ .IntValue n) → (ConnectionId ctx).1 = 1) := by
  unfold ConnectionId
  rcases hget : ctx.Get "@@connection_id" with ⟨val, ok⟩
  cases ok <;> cases val <;> simp

end Mysqlfe
